import Mathlib

/-!
Verification development for the LDD (List Decision Diagram) library.

The library represents sets of fixed-length vectors of naturals as maximally
shared decision diagrams.  This file gives a shallow embedding of the core:

* the LDD value structure and the recursive set operations of
  `ldd/src/operations.rs` are embedded as functions on an inductive tree type
  `LDD`; handle equality in the source compares node identities, which under
  the advertised maximal-sharing guarantee of the store coincides with structural
  equality, so the tree embedding uses structural equality at the `a == b`
  fast paths;
* panics (`debug_assert!`/`assert!`/`panic!` on contract violations, and
  `Storage::get` applied to a terminal) are embedded as `Option.none`;
* the node store of `ldd/src/storage.rs` (node table, freelist, protection
  roots, mark-and-sweep GC, insertion counter) is embedded as an explicit
  state record `StoreState` with state-passing functions;
* the vector iterator of `ldd/src/iterators.rs` is embedded as a step
  function on the iterator state (value stack and node stack) plus a fuelled
  driver.
-/

/-- An LDD value: `bot` is the FALSE terminal (empty set), `top` is the TRUE
terminal (the set holding the empty vector), and `node value down right` is an
internal node. -/
inductive LDD : Type where
  | bot : LDD
  | top : LDD
  | node : Nat → LDD → LDD → LDD
deriving DecidableEq

/-- The vectors encoded by an LDD, listed depth-first (down chain before right
chain), mirroring the denotation `[[node v d r]] = {v·x | x ∈ [[d]]} ∪ [[r]]`. -/
def elems : LDD → List (List Nat)
  | .bot => []
  | .top => [[]]
  | .node v d r => (elems d).map (fun x => v :: x) ++ elems r

/-- The set-valued denotation from the specification. -/
def sem : LDD → Set (List Nat)
  | .bot => ∅
  | .top => {[]}
  | .node v d r => (fun x => v :: x) '' sem d ∪ sem r

/-- Denotation of a fallible operation result; `none` (a panic) denotes
nothing. -/
def semO : Option LDD → Set (List Nat)
  | none => ∅
  | some t => sem t

/-- Height of an LDD: `height(TRUE) = 0`, `height(node v d r) = height(d)+1`;
`height(FALSE)` is unused and set to `0`. -/
def hgt : LDD → Nat
  | .bot => 0
  | .top => 0
  | .node _ d _ => hgt d + 1

/-- The value at the head node (`0` for terminals, where it is never used). -/
def topVal : LDD → Nat
  | .node v _ _ => v
  | _ => 0

/-- The canonicity invariants I1-I4 of the specification, checked recursively:
`down ≠ FALSE`, `right ≠ TRUE`, the right chain strictly ascends in value, and
right siblings share the level of the node. -/
def canonical : LDD → Bool
  | .bot => true
  | .top => true
  | .node v d r =>
    canonical d && canonical r && decide (d ≠ LDD.bot) && decide (r ≠ LDD.top) &&
    (match r with
     | .node rv _ _ => decide (v < rv) && decide (hgt d + 1 = hgt r)
     | _ => true)

/-- Height compatibility of two operands: the recursive binary operations
inspect both operands with `Storage::get`, which is only defined when the two
LDDs describe vectors of one common length (or one operand is FALSE). -/
def heightCompat (a b : LDD) : Prop :=
  a = LDD.bot ∨ b = LDD.bot ∨ hgt a = hgt b

instance (a b : LDD) : Decidable (heightCompat a b) := by
  unfold heightCompat; infer_instance

/-- `Storage::insert` restricted to its checking behaviour: the `debug_assert`
preconditions I1-I4 of `storage.rs` (panics become `none`), followed by node
construction. -/
def insertChecked (v : Nat) (d r : LDD) : Option LDD :=
  if d = LDD.bot then none
  else if r = LDD.top then none
  else
    match r with
    | .node rv _ _ =>
      if hgt d + 1 = hgt r ∧ v < rv then some (LDD.node v d r) else none
    | .top => none
    | .bot => some (LDD.node v d r)

/-- `union` from `operations.rs`: base cases `a = b`, `a = FALSE`, `b = FALSE`,
then comparison of the two head values.  `Storage::get` on a terminal panics
(`none`). -/
def unionO : LDD → LDD → Option LDD
  | a, b =>
    if a = b then some a
    else if a = LDD.bot then some b
    else if b = LDD.bot then some a
    else
      match a, b with
      | .node av ad ar, .node bv bd br =>
        if av < bv then
          (unionO ar (.node bv bd br)).bind (fun rr => insertChecked av ad rr)
        else if av = bv then
          (unionO ad bd).bind (fun dr =>
            (unionO ar br).bind (fun rr => insertChecked av dr rr))
        else
          (unionO (.node av ad ar) br).bind (fun rr => insertChecked bv bd rr)
      | _, _ => none
termination_by a b => sizeOf a + sizeOf b
decreasing_by all_goals (simp; try omega)

/-- `minus` from `operations.rs`: base cases `a = b ∨ a = FALSE`, `b = FALSE`,
then comparison of head values; on equal heads the FALSE down difference
collapses the head. -/
def minusO : LDD → LDD → Option LDD
  | a, b =>
    if a = b ∨ a = LDD.bot then some LDD.bot
    else if b = LDD.bot then some a
    else
      match a, b with
      | .node av ad ar, .node bv bd br =>
        if av < bv then
          (minusO ar (.node bv bd br)).bind (fun rr => insertChecked av ad rr)
        else if av = bv then
          (minusO ad bd).bind (fun dr =>
            (minusO ar br).bind (fun rr =>
              if dr = LDD.bot then some rr else insertChecked av dr rr))
        else
          minusO (.node av ad ar) br
      | _, _ => none
termination_by a b => sizeOf a + sizeOf b
decreasing_by all_goals (simp; try omega)

mutual

/-- `element_of` from `operations.rs`: an empty vector is contained iff the LDD
is TRUE; a non-empty vector fails at TRUE; otherwise the right chain is scanned
(`iter_right`). -/
def elementOf : List Nat → LDD → Option Bool
  | [], t => some (decide (t = LDD.top))
  | _ :: _, LDD.top => some false
  | x :: xs, t => scanChain x xs t
termination_by _ t => (sizeOf t, 1)

/-- The `for Data(value, down, _) in iter_right(storage, ldd)` loop body of
`element_of`: continue on a smaller chain value, recurse into `down` on a
match, return false once the chain value exceeds the target.  `IterRight::next`
calls `Storage::get` on the current chain element, which panics on TRUE. -/
def scanChain (x : Nat) (xs : List Nat) : LDD → Option Bool
  | LDD.bot => some false
  | LDD.top => none
  | LDD.node v d r =>
    if v < x then scanChain x xs r
    else if v = x then elementOf xs d
    else some false
termination_by t => (sizeOf t, 0)

end

/-- `singleton` from `operations.rs`: fold the vector right to left through
`insert(value, acc, FALSE)`, starting from TRUE. -/
def singletonO (v : List Nat) : Option LDD :=
  v.foldr (fun val acc => acc.bind (fun root => insertChecked val root LDD.bot)) (some LDD.top)

/-- `match proj.iter().max() { Some(x) => x + 1, None => 0 }`, the guide length
computed by `compute_proj` and (per projection array) by `compute_meta`. -/
def maxPlusOne (l : List Nat) : Nat :=
  match l.max? with
  | some x => x + 1
  | none => 0

/-- The tag vector built by `compute_proj`: one tag per level `i` below the
guide length, `1` when `i` is a projected index and `0` otherwise. -/
def computeProjVec (proj : List Nat) : List Nat :=
  (List.range (maxPlusOne proj)).foldl
    (fun acc i => acc ++ [if proj.contains i then 1 else 0]) []

/-- The guide length computed by `compute_meta`:
`max(maxPlusOne read, maxPlusOne write)`. -/
def metaLength (readProj writeProj : List Nat) : Nat :=
  max (maxPlusOne readProj) (maxPlusOne writeProj)

/-- The tags pushed by one iteration of the `compute_meta` loop for level `i`:
`[3, 4]` for a read+write level, `[1]` read only, `[2]` write only, `[0]`
otherwise. -/
def levelTags (readProj writeProj : List Nat) (i : Nat) : List Nat :=
  if readProj.contains i && writeProj.contains i then [3, 4]
  else if readProj.contains i then [1]
  else if writeProj.contains i then [2]
  else [0]

/-- The tag vector built by the `compute_meta` loop of `operations.rs`. -/
def computeMetaVec (readProj writeProj : List Nat) : List Nat :=
  (List.range (metaLength readProj writeProj)).foldl
    (fun acc i => acc ++ levelTags readProj writeProj i) []

/-- `project` from `operations.rs`: `proj = FALSE` is asserted away; `proj =
TRUE` returns TRUE before the `set = FALSE` test; `set = TRUE` is asserted
away; then the head projection tag directs merging (`0`) or keeping (`1`) the
level, any other tag panics. -/
def projectO : LDD → LDD → Option LDD
  | set, proj =>
    if proj = LDD.bot then none
    else if proj = LDD.top then some LDD.top
    else if set = LDD.bot then some LDD.bot
    else if set = LDD.top then none
    else
      match set, proj with
      | .node v d r, .node pv pd _ =>
        match pv with
        | 0 =>
          (projectO r proj).bind (fun rr =>
            (projectO d pd).bind (fun dr => unionO rr dr))
        | 1 =>
          (projectO r proj).bind (fun rr =>
            (projectO d pd).bind (fun dr =>
              if dr = LDD.bot then some rr else insertChecked v dr rr))
        | _ => none
      | _, _ => none

/-- The tag-2 aggregation loop of `relational_product`: walk the right chain of
`set`, accumulating `union(combined, down(current))`; `Storage::get` on a
terminal chain element panics. -/
def combineDowns (acc : LDD) : LDD → Option LDD
  | LDD.bot => none
  | LDD.top => none
  | LDD.node _ d r =>
    (unionO acc d).bind (fun acc2 =>
      if r = LDD.bot then some acc2 else combineDowns acc2 r)

/-- `relational_product` from `operations.rs`: `meta = FALSE` is asserted away;
`meta = TRUE` passes `set` through *before* the `set = FALSE ∨ rel = FALSE`
test; otherwise the head meta tag (0-4) selects the co-descent rule, any other
tag panics.  The recursion of the source terminates on the lexicographic
measure (meta, rel, set); here the recursion depth is bounded by an explicit
`fuel` parameter (exhaustion yields `none`), which keeps the definition
structurally recursive. -/
def relationalProduct : Nat → LDD → LDD → LDD → Option LDD
  | 0, _, _, _ => none
  | fuel + 1, set, rel, meta =>
    if meta = LDD.bot then none
    else if meta = LDD.top then some set
    else if set = LDD.bot ∨ rel = LDD.bot then some LDD.bot
    else
      match meta with
      | .node mv md mr =>
        if mv = 0 then
          match set with
          | .node v d r =>
            (relationalProduct fuel r rel (.node mv md mr)).bind (fun rr =>
              (relationalProduct fuel d rel md).bind (fun dr =>
                if dr = LDD.bot then some rr else insertChecked v dr rr))
          | _ => none
        else if mv = 1 then
          match set, rel with
          | .node sv sd sr, .node rv rd rr =>
            if sv < rv then
              relationalProduct fuel sr (.node rv rd rr) (.node mv md mr)
            else if sv = rv then
              (relationalProduct fuel sd rd md).bind (fun dres =>
                (relationalProduct fuel sr rr (.node mv md mr)).bind (fun rres =>
                  if dres = LDD.bot then some rres else insertChecked sv dres rres))
            else
              relationalProduct fuel (.node sv sd sr) rr (.node mv md mr)
          | _, _ => none
        else if mv = 2 then
          (combineDowns LDD.bot set).bind (fun combined =>
            match rel with
            | .node rv rd rr =>
              (relationalProduct fuel combined rd md).bind (fun dres =>
                (relationalProduct fuel set rr (.node mv md mr)).bind (fun rres =>
                  if dres = LDD.bot then some rres else insertChecked rv dres rres))
            | _ => none)
        else if mv = 3 then
          match set, rel with
          | .node sv sd sr, .node rv rd rr =>
            if sv < rv then
              relationalProduct fuel sr (.node rv rd rr) (.node mv md mr)
            else if sv = rv then
              (relationalProduct fuel sd rd md).bind (fun dres =>
                (relationalProduct fuel sr rr (.node mv md mr)).bind (fun rres =>
                  unionO dres rres))
            else
              relationalProduct fuel (.node sv sd sr) rr (.node mv md mr)
          | _, _ => none
        else if mv = 4 then
          match rel with
          | .node rv rd rr =>
            (relationalProduct fuel set rd md).bind (fun dres =>
              (relationalProduct fuel set rr (.node mv md mr)).bind (fun rres =>
                if dres = LDD.bot then some rres else insertChecked rv dres rres))
          | _ => none
        else none
      | _ => none

/-- The descent loop of `Iter::next` (`iterators.rs`): peek the top of the
stack, push its value, stop once `down = TRUE` (snapshotting the vector), else
push the down child and repeat.  The loop calls `Storage::get` on the stack
top, which panics on a terminal.  Returns the snapshot, the value stack and the
node stack. -/
def descend : LDD → List Nat → List LDD → Option (List Nat × List Nat × List LDD)
  | .bot, _, _ => none
  | .top, _, _ => none
  | .node v d r, vec, stk =>
    if d = LDD.top then some ((v :: vec).reverse, v :: vec, LDD.node v d r :: stk)
    else descend d (v :: vec) (LDD.node v d r :: stk)

/-- The ascent loop of `Iter::next`: pop nodes (popping one value each) until a
node with a non-FALSE right sibling is found; push that sibling and stop.  An
empty stack ends the iteration normally. -/
def ascend : List Nat → List LDD → Option (List Nat × List LDD)
  | vec, [] => some (vec, [])
  | vec, cur :: rest =>
    match cur with
    | .bot => none
    | .top => none
    | .node _ _ r =>
      if r = LDD.bot then ascend vec.tail rest
      else some (vec.tail, r :: rest)

/-- One call of `Iter::next`: empty stack yields `none` (iteration over),
otherwise descend to the next vector and ascend to the following branch
point. -/
def iterNext (s : List Nat × List LDD) : Option (List Nat × (List Nat × List LDD)) :=
  match s with
  | (_, []) => none
  | (vec, cur :: rest) =>
    (descend cur vec rest).bind (fun step =>
      (ascend step.2.1 step.2.2).map (fun s2 => (step.1, s2)))

/-- The initial iterator state built by `iter` (`iterators.rs`): an empty stack
for FALSE, otherwise the root alone on the stack. -/
def iterInit (t : LDD) : List Nat × List LDD :=
  if t = LDD.bot then ([], []) else ([], [t])

/-- Drive the iterator for at most `fuel` steps, collecting the yielded
vectors; `none` on fuel exhaustion. -/
def iterRun : Nat → (List Nat × List LDD) → Option (List (List Nat))
  | 0, _ => none
  | fuel + 1, s =>
    match iterNext s with
    | none => some []
    | some (v, s2) => (iterRun fuel s2).map (fun vs => v :: vs)

/-- Right child of a node (`FALSE` on terminals, unused there). -/
def rightOf : LDD → LDD
  | .node _ _ r => r
  | _ => LDD.bot

mutual

/-- The vectors an iterator state has yet to yield: all vectors of the stack
top (prefixed by the accumulated values), then whatever the nodes below it
still contribute through their right siblings. -/
def remVecs : List Nat → List LDD → List (List Nat)
  | _, [] => []
  | vec, c :: rest => (elems c).map (fun x => vec.reverse ++ x) ++ remVecsPop vec rest
termination_by _ stk => (stk.length, 0)

/-- The vectors still contributed by the nodes of a stack after the node above
them has been exhausted: pop one value and continue from the right sibling of
the top node. -/
def remVecsPop : List Nat → List LDD → List (List Nat)
  | _, [] => []
  | vec, t :: rest2 => remVecs vec.tail (rightOf t :: rest2)
termination_by _ stk => (stk.length, 1)

end

/-- Stacks handled by the iterator hold only canonical internal nodes (the
source comments: the stack stores "only non true or false nodes"). -/
def goodStack (stk : List LDD) : Prop :=
  ∀ s ∈ stk, canonical s = true ∧ s ≠ LDD.bot ∧ s ≠ LDD.top

/-- A small concrete LDD, the canonical diagram of `{⟨1,0⟩, ⟨1,5⟩, ⟨2,2⟩}`,
used to instantiate general theorems. -/
def sampleLDD : LDD :=
  LDD.node 1 (LDD.node 0 LDD.top (LDD.node 5 LDD.top LDD.bot))
    (LDD.node 2 (LDD.node 2 LDD.top LDD.bot) LDD.bot)

/-- One slot of the node table (`Node` in `storage.rs`): the triple, the
stored structural hash, the GC mark bit, and the filled bit.  When a slot is
not filled, its `right` field is the next-freelist-element pointer. -/
structure StoreNode where
  value : Nat
  down : Nat
  right : Nat
  hash : Nat
  marked : Bool
  filled : Bool
deriving DecidableEq

/-- The mutable state of `Storage` (`storage.rs`): node table, node freelist
head, GC countdown, GC enable flag, the node indices of the live protection-set
entries (in iteration order), and the operation cache (abstracted to a list of
keyed entries; only its clearing is observable here). -/
structure StoreState where
  table : List StoreNode
  free : Option Nat
  countUntilCollection : Nat
  enableGC : Bool
  roots : List Nat
  cache : List ((Nat × Nat) × Nat)
deriving DecidableEq

/-- Whether table slot `i` is filled (out-of-range reads as not filled). -/
def filledAt (table : List StoreNode) (i : Nat) : Bool :=
  match table[i]? with
  | some n => n.filled
  | none => false

/-- Whether table slot `i` is marked. -/
def markedAt (table : List StoreNode) (i : Nat) : Bool :=
  match table[i]? with
  | some n => n.marked
  | none => false

/-- The `down` field of slot `i` (`0` out of range). -/
def nodeDown (table : List StoreNode) (i : Nat) : Nat :=
  match table[i]? with
  | some n => n.down
  | none => 0

/-- The `right` field of slot `i` (`0` out of range). -/
def nodeRight (table : List StoreNode) (i : Nat) : Nat :=
  match table[i]? with
  | some n => n.right
  | none => 0

/-- Set the mark bit of slot `i`. -/
def setMarkedAt (table : List StoreNode) (i : Nat) : List StoreNode :=
  match table[i]? with
  | some n => table.set i { n with marked := true }
  | none => table

/-- Number of unmarked slots; the fuel measure for the marking loop. -/
def countUnmarked (table : List StoreNode) : Nat :=
  table.countP (fun n => !n.marked)

/-- The `mark_node` worklist loop of `storage.rs`, with explicit fuel (the
loop terminates because every iteration pops the stack or marks an unmarked
node): pop `current`; skip it when already marked; otherwise mark it and, for
non-terminal nodes, push its `down` and `right` children (`right` on top). -/
def markNodeF (fuel : Nat) (table : List StoreNode) (stack : List Nat) : List StoreNode :=
  match fuel, stack with
  | _, [] => table
  | 0, _ :: _ => table
  | f + 1, current :: rest =>
    if markedAt table current then markNodeF f table rest
    else
      let table2 := setMarkedAt table current
      if current = 0 ∨ current = 1 then markNodeF f table2 rest
      else markNodeF f table2 (nodeRight table current :: nodeDown table current :: rest)

/-- The mark phase of `garbage_collect`: run `mark_node` from every live
protection-set entry.  The fuel `2*|table| + 2` strictly exceeds the loop
measure `2 * countUnmarked + |stack|`. -/
def markPhase (table : List StoreNode) (roots : List Nat) : List StoreNode :=
  roots.foldl (fun t r => markNodeF (2 * t.length + 2) t [r]) table

/-- The sweep phase of `garbage_collect`, processing slots in index order:
clear the mark of marked slots; unmarked slots become unfilled freelist
elements (their `right` is the previous freelist head, or the own index when
the list was empty). -/
def sweep (i : Nat) (free : Option Nat) : List StoreNode → (List StoreNode × Option Nat)
  | [] => ([], free)
  | n :: rest =>
    if n.marked then
      let res := sweep (i + 1) free rest
      ({ n with marked := false } :: res.1, res.2)
    else
      let n2 : StoreNode :=
        { n with right := (match free with | some nx => nx | none => i), filled := false }
      let res := sweep (i + 1) (some i) rest
      (n2 :: res.1, res.2)

/-- `Storage::garbage_collect`: clear the operation cache, mark from all live
protection-set entries, then sweep.  (The cache size limit update is part of
the cache draft not present under `src/` and has no observable effect here.) -/
def garbageCollect (st : StoreState) : StoreState :=
  let marked := markPhase st.table st.roots
  let swept := sweep 0 st.free marked
  { st with table := swept.1, free := swept.2, cache := [] }

/-- Modelled from the spec: `operations::height` is called by the
`debug_assert` of `Storage::insert` but its definition is not under `src/`.
Specification §3: `height(TRUE) = 0`, `height(node(v,d,r)) = height(down)+1`,
`height(FALSE)` undefined (here: `none`, like out-of-range or cyclic chains).
Fuelled because the node table is an arbitrary graph. -/
def heightIdx (table : List StoreNode) : Nat → Nat → Option Nat
  | 0, _ => none
  | fuel + 1, i =>
    if i = 1 then some 0
    else if i = 0 then none
    else
      match table[i]? with
      | some n => (heightIdx table fuel n.down).map (· + 1)
      | none => none

/-- The `debug_assert` preconditions of `Storage::insert`: `down` is not
FALSE, `right` is not TRUE, both indices are in the table and, when `right` is
not FALSE, the heights match and the value is below the right value. -/
def insertAsserts (table : List StoreNode) (value down right : Nat) : Bool :=
  decide (down ≠ 0) && decide (right ≠ 1) &&
  decide (down < table.length) && decide (right < table.length) &&
  (right == 0 ||
    (match heightIdx table table.length down, heightIdx table table.length right,
           table[right]? with
     | some hd, some hr, some nr => decide (hd + 1 = hr) && decide (value < nr.value)
     | _, _, _ => false))

/-- `Storage::insert` of `storage.rs` as a state transformer.  Order as in the
source: the assertion checks, then the GC safepoint (collect when the counter
reached zero, when enabled, and reset it to the table length), then node
construction: reuse the freelist head when available (the counter is *not*
decremented in that branch), else push a new slot and decrement the counter.
The returned handle protects the index (`Ldd::new`), which appends it to the
live roots.  The structural hash combiner (`FxHasher`) is abstracted as the
parameter `hashFn` applied to the value and the two child hashes; the stored
hash is never read back by any modelled behaviour. -/
def storageInsert (hashFn : Nat → Nat → Nat → Nat) (st : StoreState)
    (value down right : Nat) : Option (Nat × StoreState) :=
  if insertAsserts st.table value down right then
    let st1 :=
      if st.countUntilCollection = 0 then
        let g := if st.enableGC then garbageCollect st else st
        { g with countUntilCollection := g.table.length }
      else st
    let hash := hashFn value
      (match st1.table[down]? with | some n => n.hash | none => 0)
      (match st1.table[right]? with | some n => n.hash | none => 0)
    let nd : StoreNode := ⟨value, down, right, hash, false, true⟩
    match st1.free with
    | some first =>
      let next := nodeRight st1.table first
      some (first,
        { st1 with
          table := st1.table.set first nd,
          free := if first = next then none else some next,
          roots := st1.roots ++ [first] })
    | none =>
      some (st1.table.length,
        { st1 with
          table := st1.table ++ [nd],
          countUntilCollection := st1.countUntilCollection - 1,
          roots := st1.roots ++ [st1.table.length] })
  else none

/-- `Storage::new`: the two terminal nodes (value 0, children 0, hashes 0 and
1), an empty freelist, counter 10000, automatic GC enabled, and the own
`empty_set`/`empty_vector` handles protecting indices 0 and 1. -/
def initialStore : StoreState :=
  { table := [⟨0, 0, 0, 0, false, true⟩, ⟨0, 0, 0, 1, false, true⟩],
    free := none,
    countUntilCollection := 10000,
    enableGC := true,
    roots := [0, 1],
    cache := [] }

/-- Transitive reachability through the `down`/`right` fields from the live
protection-set entries, as traversed by `mark_node`: the terminals 0 and 1 are
leaves (their field cells are freelist artifacts, not edges). -/
inductive Reach (table : List StoreNode) (roots : List Nat) : Nat → Prop where
  | root {i : Nat} : i ∈ roots → Reach table roots i
  | down {i : Nat} : Reach table roots i → i ≠ 0 → i ≠ 1 → Reach table roots (nodeDown table i)
  | right {i : Nat} : Reach table roots i → i ≠ 0 → i ≠ 1 → Reach table roots (nodeRight table i)

/-- Two slots hold filled nodes with one and the same `(value, down, right)`
triple. -/
def sameTripleFilled (st : StoreState) (i j : Nat) : Bool :=
  match st.table[i]?, st.table[j]? with
  | some a, some b =>
    a.filled && b.filled && a.value == b.value && a.down == b.down && a.right == b.right
  | _, _ => false

/-- Whether some filled slot of the table holds the triple `(v, d, r)`. -/
def hasFilledTriple (st : StoreState) (v d r : Nat) : Bool :=
  st.table.any (fun n => n.filled && n.value == v && n.down == d && n.right == r)

/-- A store whose node table has one free slot (index 2, its `right` pointing
to itself terminates the freelist) besides the two terminals. -/
def stFree : StoreState :=
  { table := [⟨0, 0, 0, 0, false, true⟩, ⟨0, 0, 0, 1, false, true⟩, ⟨0, 0, 2, 0, false, false⟩],
    free := some 2,
    countUntilCollection := 5,
    enableGC := true,
    roots := [0, 1],
    cache := [] }

/-- A fresh store with the countdown lowered to 5 (no free slots). -/
def stW : StoreState :=
  { table := [⟨0, 0, 0, 0, false, true⟩, ⟨0, 0, 0, 1, false, true⟩],
    free := none,
    countUntilCollection := 5,
    enableGC := true,
    roots := [0, 1],
    cache := [] }

/-- The state after inserting `(0, TRUE, FALSE)` into `stW`: a new slot 2, the
countdown decremented to 4, and the returned handle protecting index 2. -/
def stWres : StoreState :=
  { table := [⟨0, 0, 0, 0, false, true⟩, ⟨0, 0, 0, 1, false, true⟩, ⟨0, 1, 0, 0, false, true⟩],
    free := none,
    countUntilCollection := 4,
    enableGC := true,
    roots := [0, 1, 2],
    cache := [] }

/-- A store holding, besides the terminals, a protected node 2 = (5, TRUE,
FALSE) and an unreachable node 3 = (7, TRUE, FALSE). -/
def stGC : StoreState :=
  { table := [⟨0, 0, 0, 0, false, true⟩, ⟨0, 0, 0, 1, false, true⟩,
              ⟨5, 1, 0, 0, false, true⟩, ⟨7, 1, 0, 0, false, true⟩],
    free := none,
    countUntilCollection := 5,
    enableGC := true,
    roots := [0, 1, 2],
    cache := [] }

/-- The filled slots of a table point at filled slots within bounds: the
standing invariant of the node table between collections. -/
def tableClosed (table : List StoreNode) : Prop :=
  ∀ i, i < table.length → filledAt table i = true → i ≠ 0 → i ≠ 1 →
    nodeDown table i < table.length ∧ filledAt table (nodeDown table i) = true ∧
    nodeRight table i < table.length ∧ filledAt table (nodeRight table i) = true

/-- Two tables agree on everything the traversal dereferences — length and the
`filled`, `down` and `right` fields — while their mark bits may differ. -/
def fieldsEq (t t' : List StoreNode) : Prop :=
  t.length = t'.length ∧ (∀ i, filledAt t i = filledAt t' i) ∧
  (∀ i, nodeDown t i = nodeDown t' i) ∧ (∀ i, nodeRight t i = nodeRight t' i)

/-- The marked set is closed up to the pending worklist: both children of every
marked non-terminal slot are marked or still waiting on the stack. -/
def markClosedUpTo (t : List StoreNode) (stack : List Nat) : Prop :=
  ∀ i, markedAt t i = true → i ≠ 0 → i ≠ 1 →
    (markedAt t (nodeDown t i) = true ∨ nodeDown t i ∈ stack) ∧
    (markedAt t (nodeRight t i) = true ∨ nodeRight t i ∈ stack)

/-! ## Basic lemmas about the denotation and the canonicity invariants -/

theorem mem_sem_iff_mem_elems (t : LDD) (x : List Nat) : x ∈ sem t ↔ x ∈ elems t := by
  induction t generalizing x with
  | bot => simp [sem, elems]
  | top => simp [sem, elems]
  | node v d r ihd ihr =>
    simp only [sem, elems, Set.mem_union, Set.mem_image, List.mem_append, List.mem_map]
    constructor
    · rintro (⟨y, hy, rfl⟩ | h)
      · exact Or.inl ⟨y, (ihd y).mp hy, rfl⟩
      · exact Or.inr ((ihr x).mp h)
    · rintro (⟨y, hy, rfl⟩ | h)
      · exact Or.inl ⟨y, (ihd y).mpr hy, rfl⟩
      · exact Or.inr ((ihr x).mpr h)

theorem sem_eq_of_elems_mem (s t : LDD) (h : ∀ x, x ∈ elems s ↔ x ∈ elems t) :
    sem s = sem t := by
  ext x
  rw [mem_sem_iff_mem_elems, mem_sem_iff_mem_elems]
  exact h x

theorem canonical_node_iff (v : Nat) (d r : LDD) :
    canonical (LDD.node v d r) = true ↔
      canonical d = true ∧ canonical r = true ∧ d ≠ LDD.bot ∧ r ≠ LDD.top ∧
      (∀ rv rd rr, r = LDD.node rv rd rr → v < rv ∧ hgt d + 1 = hgt r) := by
  cases r <;> simp [canonical] <;> tauto

theorem elems_ne_nil (t : LDD) (hc : canonical t = true) (hb : t ≠ LDD.bot) :
    elems t ≠ [] := by
  induction t with
  | bot => exact absurd rfl hb
  | top => simp [elems]
  | node v d r ihd ihr =>
    obtain ⟨hcd, _, hdb, _, _⟩ := (canonical_node_iff v d r).mp hc
    have hd := ihd hcd hdb
    simp only [elems]
    intro hmt
    rcases List.append_eq_nil.mp hmt with ⟨hmap, -⟩
    exact hd (List.map_eq_nil_iff.mp hmap)

theorem mem_elems_head (t : LDD) (hc : canonical t = true) :
    ∀ x ∈ elems t, t ≠ LDD.top → ∃ h tl, x = h :: tl ∧ topVal t ≤ h := by
  induction t with
  | bot => simp [elems]
  | top => intro x _ h; exact absurd rfl h
  | node v d r ihd ihr =>
    intro x hx _
    obtain ⟨hcd, hcr, hdb, hrt, hord⟩ := (canonical_node_iff v d r).mp hc
    simp only [elems, List.mem_append, List.mem_map] at hx
    rcases hx with ⟨y, -, rfl⟩ | hr
    · exact ⟨v, y, rfl, le_refl v⟩
    · cases r with
      | bot => simp [elems] at hr
      | top => exact absurd rfl hrt
      | node rv rd rr =>
        obtain ⟨hvr, -⟩ := hord rv rd rr rfl
        obtain ⟨h, tl, rfl, hle⟩ := ihr hcr x hr (by simp)
        exact ⟨h, tl, rfl, le_of_lt (lt_of_lt_of_le hvr hle)⟩

theorem mem_elems_right_head_gt (v : Nat) (d r : LDD)
    (hc : canonical (LDD.node v d r) = true) :
    ∀ x ∈ elems r, ∃ h tl, x = h :: tl ∧ v < h := by
  intro x hx
  obtain ⟨-, hcr, -, hrt, hord⟩ := (canonical_node_iff v d r).mp hc
  cases r with
  | bot => simp [elems] at hx
  | top => exact absurd rfl hrt
  | node rv rd rr =>
    obtain ⟨hvr, -⟩ := hord rv rd rr rfl
    obtain ⟨h, tl, rfl, hle⟩ := mem_elems_head _ hcr x hx (by simp)
    exact ⟨h, tl, rfl, lt_of_lt_of_le hvr (by simpa [topVal] using hle)⟩

/-! ## C10: `element_of` on length mismatches -/

/-- C10: `element_of(vector, ldd)` returns `false` (it does not fail) in every
length-mismatch case at the public interface: any vector against the FALSE
terminal, the empty vector against an internal node, and a non-empty vector
once the TRUE terminal is reached. -/
theorem c10_element_of_mismatch_false :
    (∀ v : List Nat, elementOf v LDD.bot = some false) ∧
    (∀ (val : Nat) (d r : LDD), elementOf [] (LDD.node val d r) = some false) ∧
    (∀ (x : Nat) (xs : List Nat), elementOf (x :: xs) LDD.top = some false) := by
  refine ⟨fun v => ?_, fun val d r => ?_, fun x xs => ?_⟩
  · cases v with
    | nil => simp [elementOf]
    | cons x xs => simp [elementOf, scanChain]
  · simp [elementOf]
  · simp [elementOf]

/-! ## Stepping lemmas for `union` and `minus` -/

theorem one_le_sizeOfLDD (t : LDD) : 1 ≤ sizeOf t := by
  cases t with
  | bot => simp
  | top => simp
  | node v d r => simp; omega

theorem mem_elems_node (x : List Nat) (v : Nat) (d r : LDD) :
    x ∈ elems (LDD.node v d r) ↔ (∃ y ∈ elems d, v :: y = x) ∨ x ∈ elems r := by
  simp [elems]

theorem insertChecked_sound (v : Nat) (d r : LDD) (hd : d ≠ LDD.bot) (hrt : r ≠ LDD.top)
    (hr : ∀ rv rd rr, r = LDD.node rv rd rr → v < rv ∧ hgt d + 1 = hgt r) :
    insertChecked v d r = some (LDD.node v d r) := by
  unfold insertChecked
  cases r with
  | bot => simp [hd]
  | top => exact absurd rfl hrt
  | node rv rd rr =>
    obtain ⟨h1, h2⟩ := hr rv rd rr rfl
    simp [hd, h1, h2]

theorem unionO_self (a : LDD) : unionO a a = some a := by
  cases a <;> simp [unionO]

theorem unionO_bot_left (b : LDD) : unionO LDD.bot b = some b := by
  cases b <;> simp [unionO]

theorem unionO_bot_right (a : LDD) : unionO a LDD.bot = some a := by
  cases a <;> simp [unionO]

theorem unionO_node_lt (av : Nat) (ad ar : LDD) (bv : Nat) (bd br : LDD)
    (hlt : av < bv) :
    unionO (LDD.node av ad ar) (LDD.node bv bd br)
      = (unionO ar (LDD.node bv bd br)).bind (fun rr => insertChecked av ad rr) := by
  have hne : LDD.node av ad ar ≠ LDD.node bv bd br := by
    intro h; injection h with h1 _ _; omega
  rw [unionO]; simp [hne, hlt]

theorem unionO_node_eq (av : Nat) (ad ar bd br : LDD)
    (hne : LDD.node av ad ar ≠ LDD.node av bd br) :
    unionO (LDD.node av ad ar) (LDD.node av bd br)
      = (unionO ad bd).bind (fun dr =>
          (unionO ar br).bind (fun rr => insertChecked av dr rr)) := by
  rw [unionO]; simp [hne]

theorem unionO_node_gt (av : Nat) (ad ar : LDD) (bv : Nat) (bd br : LDD)
    (hgtv : bv < av) :
    unionO (LDD.node av ad ar) (LDD.node bv bd br)
      = (unionO (LDD.node av ad ar) br).bind (fun rr => insertChecked bv bd rr) := by
  have hne : LDD.node av ad ar ≠ LDD.node bv bd br := by
    intro h; injection h with h1 _ _; omega
  have hnlt : ¬av < bv := by omega
  have hnev : ¬av = bv := by omega
  rw [unionO]; simp [hne, hnlt, hnev]

/-! ## C2: correctness of `union` -/

/-- Strengthened induction statement for `union`: on canonical,
height-compatible operands it succeeds, preserves canonicity, denotes the set
union, and its result shape (constructor, head value, height) is determined by
the operands. -/
theorem unionO_spec :
    ∀ n a b, sizeOf a + sizeOf b ≤ n → canonical a = true → canonical b = true →
    heightCompat a b →
    ∃ c, unionO a b = some c ∧ canonical c = true ∧
      (∀ x, x ∈ elems c ↔ x ∈ elems a ∨ x ∈ elems b) ∧
      hgt c = (if a = LDD.bot then hgt b else hgt a) ∧
      (c = LDD.bot ↔ a = LDD.bot ∧ b = LDD.bot) ∧
      (c = LDD.top ↔ a = LDD.top ∨ b = LDD.top) ∧
      (∀ cv cd cr, c = LDD.node cv cd cr →
        (∀ av ad ar, a = LDD.node av ad ar → cv ≤ av) ∧
        (∀ bv bd br, b = LDD.node bv bd br → cv ≤ bv) ∧
        ((∃ ad ar, a = LDD.node cv ad ar) ∨ (∃ bd br, b = LDD.node cv bd br))) := by
  intro n
  induction n with
  | zero =>
    intro a b hsz
    have := one_le_sizeOfLDD a
    have := one_le_sizeOfLDD b
    omega
  | succ n ih =>
    intro a b hsz hca hcb hcompat
    by_cases hab : a = b
    · subst hab
      refine ⟨a, unionO_self a, hca, by simp, by simp, by simp, by simp, ?_⟩
      intro cv cd cr hc
      subst hc
      exact ⟨fun av ad ar h => by injection h with h1; omega,
             fun bv bd br h => by injection h with h1; omega,
             Or.inl ⟨cd, cr, rfl⟩⟩
    by_cases hax : a = LDD.bot
    · subst hax
      refine ⟨b, unionO_bot_left b, hcb, by simp [elems], by simp, ?_, ?_, ?_⟩
      · constructor
        · intro h; exact ⟨rfl, h⟩
        · intro h; exact h.2
      · simp
      · intro cv cd cr hc
        subst hc
        exact ⟨fun av ad ar h => by simp at h,
               fun bv bd br h => by injection h with h1; omega,
               Or.inr ⟨cd, cr, rfl⟩⟩
    by_cases hbx : b = LDD.bot
    · subst hbx
      refine ⟨a, unionO_bot_right a, hca, by simp [elems], by simp [hax], by simp [hax],
              by simp, ?_⟩
      intro cv cd cr hc
      subst hc
      exact ⟨fun av ad ar h => by injection h with h1; omega,
             fun bv bd br h => by simp at h,
             Or.inl ⟨cd, cr, rfl⟩⟩
    -- both operands are neither FALSE nor equal; compatibility forces two nodes
    rcases hcompat with h | h | hh
    · exact absurd h hax
    · exact absurd h hbx
    cases a with
    | bot => exact absurd rfl hax
    | top =>
      cases b with
      | bot => exact absurd rfl hbx
      | top => exact absurd rfl hab
      | node bv bd br => simp [hgt] at hh
    | node av ad ar =>
      cases b with
      | bot => exact absurd rfl hbx
      | top => simp [hgt] at hh
      | node bv bd br =>
        obtain ⟨hcad, hcar, hadb, hart, horda⟩ := (canonical_node_iff av ad ar).mp hca
        obtain ⟨hcbd, hcbr, hbdb, hbrt, hordb⟩ := (canonical_node_iff bv bd br).mp hcb
        have hha : hgt (LDD.node av ad ar) = hgt ad + 1 := by simp [hgt]
        have hhb : hgt (LDD.node bv bd br) = hgt bd + 1 := by simp [hgt]
        rcases Nat.lt_trichotomy av bv with hlt | heq | hgtv
        · -- value(a) < value(b): keep the head of a, merge the right chain with b
          have hcomp2 : heightCompat ar (LDD.node bv bd br) := by
            cases har : ar with
            | bot => exact Or.inl rfl
            | top => exact absurd har hart
            | node arv ard arr =>
              refine Or.inr (Or.inr ?_)
              have h4 := (horda _ _ _ har).2
              rw [har] at h4
              omega
          obtain ⟨cr, hcr, hccr, hmem, hhgt2, hbotiff, htopiff, hnode⟩ :=
            ih ar (LDD.node bv bd br) (by simp at hsz ⊢; omega) hcar hcb hcomp2
          have hcrt : cr ≠ LDD.top := by
            intro h
            rcases htopiff.mp h with h2 | h2
            · exact hart h2
            · simp at h2
          have hcrh : cr ≠ LDD.bot → hgt cr = hgt ad + 1 := by
            intro hcrb
            rw [hhgt2]
            cases har : ar with
            | bot => simp; omega
            | top => exact absurd har hart
            | node arv ard arr =>
              have h4 := (horda _ _ _ har).2
              rw [har] at h4
              simp
              omega
          have hcrfacts : ∀ rv rd rr, cr = LDD.node rv rd rr →
              av < rv ∧ hgt ad + 1 = hgt cr := by
            intro rv rd rr hc
            obtain ⟨hle1, hle2, hor⟩ := hnode rv rd rr hc
            refine ⟨?_, (hcrh (by simp [hc])).symm⟩
            rcases hor with ⟨xd, xr, hx⟩ | ⟨xd, xr, hx⟩
            · exact (horda _ _ _ hx).1
            · injection hx with h1 _ _; omega
          have hins : insertChecked av ad cr = some (LDD.node av ad cr) :=
            insertChecked_sound av ad cr hadb hcrt
              (fun rv rd rr hc => ⟨(hcrfacts rv rd rr hc).1, (hcrfacts rv rd rr hc).2⟩)
          refine ⟨LDD.node av ad cr, ?_, ?_, ?_, ?_, by simp, by simp, ?_⟩
          · rw [unionO_node_lt av ad ar bv bd br hlt, hcr]
            simpa using hins
          · exact (canonical_node_iff av ad cr).mpr ⟨hcad, hccr, hadb, hcrt, hcrfacts⟩
          · intro x
            constructor
            · intro hx
              rcases (mem_elems_node x av ad cr).mp hx with ⟨y, hy, rfl⟩ | hcr2
              · exact Or.inl ((mem_elems_node _ av ad ar).mpr (Or.inl ⟨y, hy, rfl⟩))
              · rcases (hmem x).mp hcr2 with h2 | h2
                · exact Or.inl ((mem_elems_node x av ad ar).mpr (Or.inr h2))
                · exact Or.inr h2
            · intro hx
              rcases hx with hx | hx
              · rcases (mem_elems_node x av ad ar).mp hx with ⟨y, hy, rfl⟩ | h2
                · exact (mem_elems_node _ av ad cr).mpr (Or.inl ⟨y, hy, rfl⟩)
                · exact (mem_elems_node x av ad cr).mpr (Or.inr ((hmem x).mpr (Or.inl h2)))
              · exact (mem_elems_node x av ad cr).mpr (Or.inr ((hmem x).mpr (Or.inr hx)))
          · simp [hgt]
          · intro cv cd crr hc
            injection hc with h1 h2 h3
            subst h1
            exact ⟨fun av2 ad2 ar2 h => by injection h with h1; omega,
                   fun bv2 bd2 br2 h => by injection h with h1; omega,
                   Or.inl ⟨ad, ar, rfl⟩⟩
        · -- equal head values: merge both children pairs
          subst heq
          have hcompd : heightCompat ad bd := by
            refine Or.inr (Or.inr ?_)
            omega
          have hcompr : heightCompat ar br := by
            cases har : ar with
            | bot => exact Or.inl rfl
            | top => exact absurd har hart
            | node arv ard arr =>
              cases hbr : br with
              | bot => exact Or.inr (Or.inl rfl)
              | top => exact absurd hbr hbrt
              | node brv brd brr =>
                refine Or.inr (Or.inr ?_)
                have h4 := (horda _ _ _ har).2
                have h5 := (hordb _ _ _ hbr).2
                rw [har] at h4
                rw [hbr] at h5
                omega
          obtain ⟨cd, hcd, hccd, hmemd, hhgtd, hbotiffd, htopiffd, hnoded⟩ :=
            ih ad bd (by simp at hsz ⊢; omega) hcad hcbd hcompd
          obtain ⟨cr, hcr, hccr, hmemr, hhgtr, hbotiffr, htopiffr, hnoder⟩ :=
            ih ar br (by simp at hsz ⊢; omega) hcar hcbr hcompr
          have hcdb : cd ≠ LDD.bot := by
            intro h; exact hadb (hbotiffd.mp h).1
          have hcrt : cr ≠ LDD.top := by
            intro h
            rcases htopiffr.mp h with h2 | h2
            · exact hart h2
            · exact hbrt h2
          have hgtcd : hgt cd = hgt ad := by rw [hhgtd, if_neg hadb]
          have hcrh : cr ≠ LDD.bot → hgt cr = hgt ad + 1 := by
            intro hcrb
            rw [hhgtr]
            cases har : ar with
            | bot =>
              simp
              cases hbr : br with
              | bot =>
                rw [har, hbr] at hbotiffr
                simp at hbotiffr
                exact absurd hbotiffr hcrb
              | top => exact absurd hbr hbrt
              | node brv brd brr =>
                have h5 := (hordb _ _ _ hbr).2
                rw [hbr] at h5
                omega
            | top => exact absurd har hart
            | node arv ard arr =>
              have h4 := (horda _ _ _ har).2
              rw [har] at h4
              simp
              omega
          have hcrfacts : ∀ rv rd rr, cr = LDD.node rv rd rr →
              av < rv ∧ hgt cd + 1 = hgt cr := by
            intro rv rd rr hc
            obtain ⟨hle1, hle2, hor⟩ := hnoder rv rd rr hc
            refine ⟨?_, by rw [hgtcd]; exact (hcrh (by simp [hc])).symm⟩
            rcases hor with ⟨xd, xr, hx⟩ | ⟨xd, xr, hx⟩
            · exact (horda _ _ _ hx).1
            · exact (hordb _ _ _ hx).1
          have hins : insertChecked av cd cr = some (LDD.node av cd cr) :=
            insertChecked_sound av cd cr hcdb hcrt hcrfacts
          refine ⟨LDD.node av cd cr, ?_, ?_, ?_, ?_, by simp, by simp, ?_⟩
          · rw [unionO_node_eq av ad ar bd br hab, hcd]
            simp only [Option.some_bind]
            rw [hcr]
            simpa using hins
          · exact (canonical_node_iff av cd cr).mpr ⟨hccd, hccr, hcdb, hcrt, hcrfacts⟩
          · intro x
            rw [mem_elems_node, mem_elems_node, mem_elems_node]
            constructor
            · rintro (⟨y, hy, rfl⟩ | hr)
              · rcases (hmemd y).mp hy with h2 | h2
                · exact Or.inl (Or.inl ⟨y, h2, rfl⟩)
                · exact Or.inr (Or.inl ⟨y, h2, rfl⟩)
              · rcases (hmemr x).mp hr with h2 | h2
                · exact Or.inl (Or.inr h2)
                · exact Or.inr (Or.inr h2)
            · rintro ((⟨y, hy, rfl⟩ | hr) | (⟨y, hy, rfl⟩ | hr))
              · exact Or.inl ⟨y, (hmemd y).mpr (Or.inl hy), rfl⟩
              · exact Or.inr ((hmemr x).mpr (Or.inl hr))
              · exact Or.inl ⟨y, (hmemd y).mpr (Or.inr hy), rfl⟩
              · exact Or.inr ((hmemr x).mpr (Or.inr hr))
          · simp only [hgt, if_neg (by simp : ¬LDD.node av ad ar = LDD.bot)]
            rw [hgtcd]
          · intro cv cdd crr hc
            injection hc with h1 h2 h3
            subst h1
            exact ⟨fun av2 ad2 ar2 h => by injection h with h1; omega,
                   fun bv2 bd2 br2 h => by injection h with h1; omega,
                   Or.inl ⟨ad, ar, rfl⟩⟩
        · -- value(a) > value(b): keep the head of b
          have hcomp2 : heightCompat (LDD.node av ad ar) br := by
            cases hbr : br with
            | bot => exact Or.inr (Or.inl rfl)
            | top => exact absurd hbr hbrt
            | node brv brd brr =>
              refine Or.inr (Or.inr ?_)
              have h5 := (hordb _ _ _ hbr).2
              rw [hbr] at h5
              omega
          obtain ⟨cr, hcr, hccr, hmem, hhgt2, hbotiff, htopiff, hnode⟩ :=
            ih (LDD.node av ad ar) br (by simp at hsz ⊢; omega) hca hcbr hcomp2
          have hcrt : cr ≠ LDD.top := by
            intro h
            rcases htopiff.mp h with h2 | h2
            · simp at h2
            · exact hbrt h2
          have hcrh : cr ≠ LDD.bot → hgt cr = hgt bd + 1 := by
            intro hcrb
            rw [hhgt2]
            simp
            omega
          have hcrfacts : ∀ rv rd rr, cr = LDD.node rv rd rr →
              bv < rv ∧ hgt bd + 1 = hgt cr := by
            intro rv rd rr hc
            obtain ⟨hle1, hle2, hor⟩ := hnode rv rd rr hc
            refine ⟨?_, (hcrh (by simp [hc])).symm⟩
            rcases hor with ⟨xd, xr, hx⟩ | ⟨xd, xr, hx⟩
            · injection hx with h1 _ _; omega
            · exact (hordb _ _ _ hx).1
          have hins : insertChecked bv bd cr = some (LDD.node bv bd cr) :=
            insertChecked_sound bv bd cr hbdb hcrt hcrfacts
          refine ⟨LDD.node bv bd cr, ?_, ?_, ?_, ?_, by simp, by simp, ?_⟩
          · rw [unionO_node_gt av ad ar bv bd br hgtv, hcr]
            simpa using hins
          · exact (canonical_node_iff bv bd cr).mpr ⟨hcbd, hccr, hbdb, hcrt, hcrfacts⟩
          · intro x
            constructor
            · intro hx
              rcases (mem_elems_node x bv bd cr).mp hx with ⟨y, hy, rfl⟩ | hcr2
              · exact Or.inr ((mem_elems_node _ bv bd br).mpr (Or.inl ⟨y, hy, rfl⟩))
              · rcases (hmem x).mp hcr2 with h2 | h2
                · exact Or.inl h2
                · exact Or.inr ((mem_elems_node x bv bd br).mpr (Or.inr h2))
            · intro hx
              rcases hx with hx | hx
              · exact (mem_elems_node x bv bd cr).mpr (Or.inr ((hmem x).mpr (Or.inl hx)))
              · rcases (mem_elems_node x bv bd br).mp hx with ⟨y, hy, rfl⟩ | h2
                · exact (mem_elems_node _ bv bd cr).mpr (Or.inl ⟨y, hy, rfl⟩)
                · exact (mem_elems_node x bv bd cr).mpr (Or.inr ((hmem x).mpr (Or.inr h2)))
          · simp [hgt]
            omega
          · intro cv cdd crr hc
            injection hc with h1 h2 h3
            subst h1
            exact ⟨fun av2 ad2 ar2 h => by injection h with h1; omega,
                   fun bv2 bd2 br2 h => by injection h with h1; omega,
                   Or.inr ⟨bd, br, rfl⟩⟩

/-- C2 counterexample: the TRUE terminal and a height-1 node both satisfy
I1-I4, yet `union` applied to them panics (`Storage::get` inspects the TRUE
terminal), so no LDD denoting the union is returned. -/
theorem c2_union_counterexample_mixed_heights :
    canonical LDD.top = true ∧ canonical (LDD.node 0 LDD.top LDD.bot) = true ∧
    unionO LDD.top (LDD.node 0 LDD.top LDD.bot) = none := by
  refine ⟨rfl, by decide, ?_⟩
  simp [unionO]

/-- C2 (amended): for all LDDs `a` and `b` satisfying I1-I4 that are
additionally height-compatible (one is FALSE, or they have equal height),
`union(a, b)` returns an LDD whose denotation is `[[a]] ∪ [[b]]` (and is again
canonical). -/
theorem c2_union_denotation (a b : LDD) (ha : canonical a = true) (hb : canonical b = true)
    (hcomp : heightCompat a b) :
    (unionO a b).isSome = true ∧ semO (unionO a b) = sem a ∪ sem b ∧
    canonical ((unionO a b).getD LDD.bot) = true := by
  obtain ⟨c, hc, hcc, hmem, -, -, -, -⟩ :=
    unionO_spec (sizeOf a + sizeOf b) a b le_rfl ha hb hcomp
  refine ⟨by simp [hc], ?_, by simp [hc, hcc]⟩
  rw [hc]
  show sem c = sem a ∪ sem b
  ext x
  rw [mem_sem_iff_mem_elems]
  simp only [Set.mem_union]
  rw [mem_sem_iff_mem_elems, mem_sem_iff_mem_elems]
  exact hmem x

/-- C2 witness: the amended claim applied to the singletons `{⟨1⟩}` and
`{⟨2⟩}`. -/
theorem c2_union_denotation_witness :
    canonical (LDD.node 1 LDD.top LDD.bot) = true ∧
    canonical (LDD.node 2 LDD.top LDD.bot) = true ∧
    heightCompat (LDD.node 1 LDD.top LDD.bot) (LDD.node 2 LDD.top LDD.bot) ∧
    ((unionO (LDD.node 1 LDD.top LDD.bot) (LDD.node 2 LDD.top LDD.bot)).isSome = true ∧
     semO (unionO (LDD.node 1 LDD.top LDD.bot) (LDD.node 2 LDD.top LDD.bot))
       = sem (LDD.node 1 LDD.top LDD.bot) ∪ sem (LDD.node 2 LDD.top LDD.bot) ∧
     canonical ((unionO (LDD.node 1 LDD.top LDD.bot)
        (LDD.node 2 LDD.top LDD.bot)).getD LDD.bot) = true) :=
  ⟨by decide, by decide, by decide,
   c2_union_denotation _ _ (by decide) (by decide) (by decide)⟩

/-! ## C3: correctness of `minus` -/

theorem minusO_self (a : LDD) : minusO a a = some LDD.bot := by
  cases a <;> simp [minusO]

theorem minusO_bot_left (b : LDD) : minusO LDD.bot b = some LDD.bot := by
  cases b <;> simp [minusO]

theorem minusO_bot_right (a : LDD) (ha : a ≠ LDD.bot) : minusO a LDD.bot = some a := by
  cases a with
  | bot => exact absurd rfl ha
  | top => simp [minusO]
  | node v d r => simp [minusO]

theorem minusO_node_lt (av : Nat) (ad ar : LDD) (bv : Nat) (bd br : LDD)
    (hlt : av < bv) :
    minusO (LDD.node av ad ar) (LDD.node bv bd br)
      = (minusO ar (LDD.node bv bd br)).bind (fun rr => insertChecked av ad rr) := by
  have hne : ¬(LDD.node av ad ar = LDD.node bv bd br ∨ LDD.node av ad ar = LDD.bot) := by
    rintro (h | h)
    · injection h with h1 _ _; omega
    · simp at h
  rw [minusO]; simp [hne, hlt]
  intro h1 _ _
  exact absurd h1 (by omega)

theorem minusO_node_eq (av : Nat) (ad ar bd br : LDD)
    (hne : LDD.node av ad ar ≠ LDD.node av bd br) :
    minusO (LDD.node av ad ar) (LDD.node av bd br)
      = (minusO ad bd).bind (fun dr =>
          (minusO ar br).bind (fun rr =>
            if dr = LDD.bot then some rr else insertChecked av dr rr)) := by
  have hne2 : ¬(LDD.node av ad ar = LDD.node av bd br ∨ LDD.node av ad ar = LDD.bot) := by
    rintro (h | h)
    · exact hne h
    · simp at h
  rw [minusO]; simp [hne2]
  intro h1 h2
  subst h1
  subst h2
  exact absurd rfl hne

theorem minusO_node_gt (av : Nat) (ad ar : LDD) (bv : Nat) (bd br : LDD)
    (hgtv : bv < av) :
    minusO (LDD.node av ad ar) (LDD.node bv bd br)
      = minusO (LDD.node av ad ar) br := by
  have hne2 : ¬(LDD.node av ad ar = LDD.node bv bd br ∨ LDD.node av ad ar = LDD.bot) := by
    rintro (h | h)
    · injection h with h1 _ _; omega
    · simp at h
  have hnlt : ¬av < bv := by omega
  have hnev : ¬av = bv := by omega
  rw [minusO]; simp [hne2, hnlt, hnev]

/-- Strengthened induction statement for `minus`: on canonical,
height-compatible operands it succeeds, preserves canonicity, denotes the set
difference, keeps the height of `a` when non-empty, and its head value is at
least the head value of `a`. -/
theorem minusO_spec :
    ∀ n a b, sizeOf a + sizeOf b ≤ n → canonical a = true → canonical b = true →
    heightCompat a b →
    ∃ c, minusO a b = some c ∧ canonical c = true ∧
      (∀ x, x ∈ elems c ↔ x ∈ elems a ∧ x ∉ elems b) ∧
      (c ≠ LDD.bot → hgt c = hgt a) ∧
      (c = LDD.top → a = LDD.top) ∧
      (∀ cv cd cr, c = LDD.node cv cd cr →
        ∃ av ad ar, a = LDD.node av ad ar ∧ av ≤ cv) := by
  intro n
  induction n with
  | zero =>
    intro a b hsz
    have := one_le_sizeOfLDD a
    have := one_le_sizeOfLDD b
    omega
  | succ n ih =>
    intro a b hsz hca hcb hcompat
    by_cases hab : a = b
    · subst hab
      refine ⟨LDD.bot, minusO_self a, rfl, by simp [elems], by simp, by simp, by simp⟩
    by_cases hax : a = LDD.bot
    · subst hax
      refine ⟨LDD.bot, minusO_bot_left b, rfl, by simp [elems], by simp, by simp, by simp⟩
    by_cases hbx : b = LDD.bot
    · subst hbx
      refine ⟨a, minusO_bot_right a hax, hca, by simp [elems], fun _ => rfl, fun h => h, ?_⟩
      intro cv cd cr hc
      exact ⟨cv, cd, cr, hc, le_refl cv⟩
    rcases hcompat with h | h | hh
    · exact absurd h hax
    · exact absurd h hbx
    cases a with
    | bot => exact absurd rfl hax
    | top =>
      cases b with
      | bot => exact absurd rfl hbx
      | top => exact absurd rfl hab
      | node bv bd br => simp [hgt] at hh
    | node av ad ar =>
      cases b with
      | bot => exact absurd rfl hbx
      | top => simp [hgt] at hh
      | node bv bd br =>
        obtain ⟨hcad, hcar, hadb, hart, horda⟩ := (canonical_node_iff av ad ar).mp hca
        obtain ⟨hcbd, hcbr, hbdb, hbrt, hordb⟩ := (canonical_node_iff bv bd br).mp hcb
        have hha : hgt (LDD.node av ad ar) = hgt ad + 1 := by simp [hgt]
        have hhb : hgt (LDD.node bv bd br) = hgt bd + 1 := by simp [hgt]
        have hheada : ∀ x ∈ elems (LDD.node av ad ar), ∃ h tl, x = h :: tl ∧ av ≤ h :=
          fun x hx => by
            simpa [topVal] using mem_elems_head (LDD.node av ad ar) hca x hx (by simp)
        have hheadb : ∀ x ∈ elems (LDD.node bv bd br), ∃ h tl, x = h :: tl ∧ bv ≤ h :=
          fun x hx => by
            simpa [topVal] using mem_elems_head (LDD.node bv bd br) hcb x hx (by simp)
        rcases Nat.lt_trichotomy av bv with hlt | heq | hgtv
        · -- value(a) < value(b): keep the head of a, subtract b from the right chain
          have hcomp2 : heightCompat ar (LDD.node bv bd br) := by
            cases har : ar with
            | bot => exact Or.inl rfl
            | top => exact absurd har hart
            | node arv ard arr =>
              refine Or.inr (Or.inr ?_)
              have h4 := (horda _ _ _ har).2
              rw [har] at h4
              omega
          obtain ⟨cr, hcr, hccr, hmem, hhgt2, htopf, hnodef⟩ :=
            ih ar (LDD.node bv bd br) (by simp at hsz ⊢; omega) hcar hcb hcomp2
          have hcrt : cr ≠ LDD.top := by
            intro h; exact hart (htopf h)
          have hcrfacts : ∀ rv rd rr, cr = LDD.node rv rd rr →
              av < rv ∧ hgt ad + 1 = hgt cr := by
            intro rv rd rr hc
            obtain ⟨arv, ard, arr, har, hle⟩ := hnodef rv rd rr hc
            have h4 := (horda _ _ _ har).2
            constructor
            · exact lt_of_lt_of_le (horda _ _ _ har).1 hle
            · rw [hhgt2 (by simp [hc]), ← h4]
          have hins : insertChecked av ad cr = some (LDD.node av ad cr) :=
            insertChecked_sound av ad cr hadb hcrt hcrfacts
          refine ⟨LDD.node av ad cr, ?_, ?_, ?_, ?_, by simp, ?_⟩
          · rw [minusO_node_lt av ad ar bv bd br hlt, hcr]
            simpa using hins
          · exact (canonical_node_iff av ad cr).mpr ⟨hcad, hccr, hadb, hcrt, hcrfacts⟩
          · intro x
            constructor
            · intro hx
              rcases (mem_elems_node x av ad cr).mp hx with ⟨y, hy, rfl⟩ | hcr2
              · refine ⟨(mem_elems_node _ av ad ar).mpr (Or.inl ⟨y, hy, rfl⟩), ?_⟩
                intro hxb
                obtain ⟨h, tl, heq2, hge⟩ := hheadb _ hxb
                injection heq2 with h1 _
                omega
              · obtain ⟨h1, h2⟩ := (hmem x).mp hcr2
                exact ⟨(mem_elems_node x av ad ar).mpr (Or.inr h1), h2⟩
            · rintro ⟨hxa, hxb⟩
              rcases (mem_elems_node x av ad ar).mp hxa with ⟨y, hy, rfl⟩ | h2
              · exact (mem_elems_node _ av ad cr).mpr (Or.inl ⟨y, hy, rfl⟩)
              · exact (mem_elems_node x av ad cr).mpr (Or.inr ((hmem x).mpr ⟨h2, hxb⟩))
          · intro _; simp [hgt]
          · intro cv cd crr hc
            injection hc with h1 h2 h3
            exact ⟨av, ad, ar, rfl, le_of_eq h1⟩
        · -- equal head values: subtract both children pairs, collapse on FALSE
          subst heq
          have hcompd : heightCompat ad bd := by
            refine Or.inr (Or.inr ?_)
            omega
          have hcompr : heightCompat ar br := by
            cases har : ar with
            | bot => exact Or.inl rfl
            | top => exact absurd har hart
            | node arv ard arr =>
              cases hbr : br with
              | bot => exact Or.inr (Or.inl rfl)
              | top => exact absurd hbr hbrt
              | node brv brd brr =>
                refine Or.inr (Or.inr ?_)
                have h4 := (horda _ _ _ har).2
                have h5 := (hordb _ _ _ hbr).2
                rw [har] at h4
                rw [hbr] at h5
                omega
          obtain ⟨dr, hdr, hcdr, hmemd, hhgtd, htopfd, hnodefd⟩ :=
            ih ad bd (by simp at hsz ⊢; omega) hcad hcbd hcompd
          obtain ⟨cr, hcr, hccr, hmemr, hhgtr, htopfr, hnodefr⟩ :=
            ih ar br (by simp at hsz ⊢; omega) hcar hcbr hcompr
          have hcrt : cr ≠ LDD.top := by
            intro h; exact hart (htopfr h)
          have harhead : ∀ x ∈ elems ar, ∃ h tl, x = h :: tl ∧ av < h :=
            mem_elems_right_head_gt av ad ar hca
          have hbrhead : ∀ x ∈ elems br, ∃ h tl, x = h :: tl ∧ av < h :=
            mem_elems_right_head_gt av bd br hcb
          have hcrfacts : ∀ rv rd rr, cr = LDD.node rv rd rr →
              av < rv ∧ hgt ar = hgt cr := by
            intro rv rd rr hc
            obtain ⟨arv, ard, arr, har, hle⟩ := hnodefr rv rd rr hc
            exact ⟨lt_of_lt_of_le (horda _ _ _ har).1 hle, (hhgtr (by simp [hc])).symm⟩
          by_cases hdrb : dr = LDD.bot
          · -- the down difference collapsed: yield only the right difference
            subst hdrb
            have hmemd2 : ∀ y, y ∈ elems ad → y ∈ elems bd := by
              intro y hy
              by_contra hyn
              have := (hmemd y).mpr ⟨hy, hyn⟩
              simp [elems] at this
            refine ⟨cr, ?_, hccr, ?_, ?_, ?_, ?_⟩
            · rw [minusO_node_eq av ad ar bd br hab, hdr]
              simp only [Option.some_bind]
              rw [hcr]
              simp
            · intro x
              constructor
              · intro hx
                obtain ⟨h1, h2⟩ := (hmemr x).mp hx
                refine ⟨(mem_elems_node x av ad ar).mpr (Or.inr h1), ?_⟩
                intro hxb
                rcases (mem_elems_node x av bd br).mp hxb with ⟨y, hy, rfl⟩ | h3
                · obtain ⟨h, tl, heq2, hgt2⟩ := harhead _ h1
                  injection heq2 with h4 _
                  omega
                · exact h2 h3
              · rintro ⟨hxa, hxb⟩
                rcases (mem_elems_node x av ad ar).mp hxa with ⟨y, hy, rfl⟩ | h2
                · exact absurd ((mem_elems_node _ av bd br).mpr
                    (Or.inl ⟨y, hmemd2 y hy, rfl⟩)) hxb
                · refine (hmemr x).mpr ⟨h2, ?_⟩
                  intro hbr2
                  exact hxb ((mem_elems_node x av bd br).mpr (Or.inr hbr2))
            · intro hcb2
              rw [hhgtr hcb2, hha]
              cases har : ar with
              | bot =>
                rw [har] at hhgtr
                cases hcrx : cr with
                | bot => exact absurd hcrx hcb2
                | top => exact absurd hcrx hcrt
                | node xv xd xr =>
                  obtain ⟨arv, ard, arr, har2, -⟩ := hnodefr _ _ _ hcrx
                  rw [har] at har2
                  simp at har2
              | top => exact absurd har hart
              | node arv ard arr =>
                have h4 := (horda _ _ _ har).2
                rw [har] at h4
                omega
            · intro h
              exact absurd (htopfr h) hart
            · intro cv cd crr hc
              obtain ⟨h1, -⟩ := hcrfacts cv cd crr hc
              exact ⟨av, ad, ar, rfl, le_of_lt h1⟩
          · -- the down difference is non-empty: build the node
            have hdrn : ∀ rv rd rr, cr = LDD.node rv rd rr →
                av < rv ∧ hgt dr + 1 = hgt cr := by
              intro rv rd rr hc
              obtain ⟨h1, h2⟩ := hcrfacts rv rd rr hc
              refine ⟨h1, ?_⟩
              rw [hhgtd hdrb, ← h2]
              obtain ⟨arv, ard, arr, har, -⟩ := hnodefr rv rd rr hc
              have h4 := (horda _ _ _ har).2
              omega
            have hins : insertChecked av dr cr = some (LDD.node av dr cr) :=
              insertChecked_sound av dr cr hdrb hcrt hdrn
            refine ⟨LDD.node av dr cr, ?_, ?_, ?_, ?_, by simp, ?_⟩
            · rw [minusO_node_eq av ad ar bd br hab, hdr]
              simp only [Option.some_bind]
              rw [hcr]
              simp only [Option.some_bind]
              rw [if_neg hdrb]
              exact hins
            · exact (canonical_node_iff av dr cr).mpr ⟨hcdr, hccr, hdrb, hcrt, hdrn⟩
            · intro x
              constructor
              · intro hx
                rcases (mem_elems_node x av dr cr).mp hx with ⟨y, hy, rfl⟩ | hcr2
                · obtain ⟨hyad, hynbd⟩ := (hmemd y).mp hy
                  refine ⟨(mem_elems_node _ av ad ar).mpr (Or.inl ⟨y, hyad, rfl⟩), ?_⟩
                  intro hxb
                  rcases (mem_elems_node _ av bd br).mp hxb with ⟨y2, hy2, heq2⟩ | h3
                  · injection heq2 with _ h4
                    exact hynbd (h4 ▸ hy2)
                  · obtain ⟨h, tl, heq2, hgt2⟩ := hbrhead _ h3
                    injection heq2 with h4 _
                    omega
                · obtain ⟨h1, h2⟩ := (hmemr x).mp hcr2
                  refine ⟨(mem_elems_node x av ad ar).mpr (Or.inr h1), ?_⟩
                  intro hxb
                  rcases (mem_elems_node x av bd br).mp hxb with ⟨y, hy, rfl⟩ | h3
                  · obtain ⟨h, tl, heq2, hgt2⟩ := harhead _ h1
                    injection heq2 with h4 _
                    omega
                  · exact h2 h3
              · rintro ⟨hxa, hxb⟩
                rcases (mem_elems_node x av ad ar).mp hxa with ⟨y, hy, rfl⟩ | h2
                · refine (mem_elems_node _ av dr cr).mpr (Or.inl ⟨y, ?_, rfl⟩)
                  refine (hmemd y).mpr ⟨hy, ?_⟩
                  intro hybd
                  exact hxb ((mem_elems_node _ av bd br).mpr (Or.inl ⟨y, hybd, rfl⟩))
                · refine (mem_elems_node x av dr cr).mpr (Or.inr ?_)
                  refine (hmemr x).mpr ⟨h2, ?_⟩
                  intro hbr2
                  exact hxb ((mem_elems_node x av bd br).mpr (Or.inr hbr2))
            · intro _
              simp only [hgt, hha]
              rw [hhgtd hdrb]
            · intro cv cd crr hc
              injection hc with h1 h2 h3
              exact ⟨av, ad, ar, rfl, le_of_eq h1⟩
        · -- value(a) > value(b): drop the head of b
          have hcomp2 : heightCompat (LDD.node av ad ar) br := by
            cases hbr : br with
            | bot => exact Or.inr (Or.inl rfl)
            | top => exact absurd hbr hbrt
            | node brv brd brr =>
              refine Or.inr (Or.inr ?_)
              have h5 := (hordb _ _ _ hbr).2
              rw [hbr] at h5
              omega
          obtain ⟨c, hc, hcc, hmem, hhgt2, htopf, hnodef⟩ :=
            ih (LDD.node av ad ar) br (by simp at hsz ⊢; omega) hca hcbr hcomp2
          refine ⟨c, ?_, hcc, ?_, hhgt2, htopf, hnodef⟩
          · rw [minusO_node_gt av ad ar bv bd br hgtv, hc]
          · intro x
            rw [hmem x]
            constructor
            · rintro ⟨h1, h2⟩
              refine ⟨h1, ?_⟩
              intro hxb
              rcases (mem_elems_node x bv bd br).mp hxb with ⟨y, hy, rfl⟩ | h3
              · obtain ⟨h, tl, heq2, hge⟩ := hheada _ h1
                injection heq2 with h4 _
                omega
              · exact h2 h3
            · rintro ⟨h1, h2⟩
              exact ⟨h1, fun h3 => h2 ((mem_elems_node x bv bd br).mpr (Or.inr h3))⟩

/-- C3 counterexample: a height-1 node and the TRUE terminal both satisfy
I1-I4, yet `minus` applied to them panics (`Storage::get` inspects the TRUE
terminal), so no LDD denoting the difference is returned. -/
theorem c3_minus_counterexample_mixed_heights :
    canonical (LDD.node 0 LDD.top LDD.bot) = true ∧ canonical LDD.top = true ∧
    minusO (LDD.node 0 LDD.top LDD.bot) LDD.top = none := by
  refine ⟨by decide, rfl, ?_⟩
  simp [minusO]

/-- C3 (amended): for all LDDs `a` and `b` satisfying I1-I4 that are
additionally height-compatible (one is FALSE, or they have equal height),
`minus(a, b)` returns an LDD whose denotation is `[[a]] \ [[b]]` and is again
canonical; moreover, in the equal-values case a FALSE difference of the down
children drops the head value and yields only the right result, which is how
invariant I1 is preserved. -/
theorem c3_minus_denotation (a b : LDD) (ha : canonical a = true) (hb : canonical b = true)
    (hcomp : heightCompat a b) :
    (minusO a b).isSome = true ∧ semO (minusO a b) = sem a \ sem b ∧
    canonical ((minusO a b).getD LDD.bot) = true ∧
    (∀ (v : Nat) (da ra db rb : LDD), LDD.node v da ra ≠ LDD.node v db rb →
      minusO da db = some LDD.bot →
      minusO (LDD.node v da ra) (LDD.node v db rb) = minusO ra rb) := by
  obtain ⟨c, hc, hcc, hmem, -, -, -⟩ :=
    minusO_spec (sizeOf a + sizeOf b) a b le_rfl ha hb hcomp
  refine ⟨by simp [hc], ?_, by simp [hc, hcc], ?_⟩
  · rw [hc]
    show sem c = sem a \ sem b
    ext x
    rw [mem_sem_iff_mem_elems]
    simp only [Set.mem_diff]
    rw [mem_sem_iff_mem_elems, mem_sem_iff_mem_elems]
    exact hmem x
  · intro v da ra db rb hne hdb
    rw [minusO_node_eq v da ra db rb hne, hdb]
    simp only [Option.some_bind]
    cases h : minusO ra rb with
    | none => simp
    | some rr => simp

/-- C3 witness: the amended claim applied to `{⟨1⟩, ⟨2⟩} \ {⟨1⟩}`. -/
theorem c3_minus_denotation_witness :
    canonical (LDD.node 1 LDD.top (LDD.node 2 LDD.top LDD.bot)) = true ∧
    canonical (LDD.node 1 LDD.top LDD.bot) = true ∧
    heightCompat (LDD.node 1 LDD.top (LDD.node 2 LDD.top LDD.bot))
      (LDD.node 1 LDD.top LDD.bot) ∧
    ((minusO (LDD.node 1 LDD.top (LDD.node 2 LDD.top LDD.bot))
        (LDD.node 1 LDD.top LDD.bot)).isSome = true ∧
     semO (minusO (LDD.node 1 LDD.top (LDD.node 2 LDD.top LDD.bot))
        (LDD.node 1 LDD.top LDD.bot))
       = sem (LDD.node 1 LDD.top (LDD.node 2 LDD.top LDD.bot))
           \ sem (LDD.node 1 LDD.top LDD.bot) ∧
     canonical ((minusO (LDD.node 1 LDD.top (LDD.node 2 LDD.top LDD.bot))
        (LDD.node 1 LDD.top LDD.bot)).getD LDD.bot) = true ∧
     (∀ (v : Nat) (da ra db rb : LDD), LDD.node v da ra ≠ LDD.node v db rb →
       minusO da db = some LDD.bot →
       minusO (LDD.node v da ra) (LDD.node v db rb) = minusO ra rb)) :=
  ⟨by decide, by decide, by decide,
   c3_minus_denotation _ _ (by decide) (by decide) (by decide)⟩

/-! ## C9: the vector iterator -/

theorem remVecs_cons (vec : List Nat) (c : LDD) (rest : List LDD) :
    remVecs vec (c :: rest)
      = (elems c).map (fun x => vec.reverse ++ x) ++ remVecsPop vec rest := by
  rw [remVecs]

theorem remVecsPop_cons (vec : List Nat) (t : LDD) (rest2 : List LDD) :
    remVecsPop vec (t :: rest2) = remVecs vec.tail (rightOf t :: rest2) := by
  rw [remVecsPop]

/-- Reshaping the stack one descent step deeper does not change the vectors
still to be yielded. -/
theorem remVecs_reshape (v : Nat) (d r : LDD) (rest : List LDD) (vec : List Nat) :
    remVecs vec (LDD.node v d r :: rest) = remVecs (v :: vec) (d :: LDD.node v d r :: rest) := by
  rw [remVecs_cons, remVecs_cons, remVecsPop_cons]
  simp only [List.tail_cons, rightOf]
  rw [remVecs_cons]
  simp only [elems, List.map_append, List.map_map, List.reverse_cons, List.append_assoc]
  rfl

theorem iterNext_cons (vec : List Nat) (cur : LDD) (rest : List LDD) :
    iterNext (vec, cur :: rest)
      = (descend cur vec rest).bind (fun step =>
          (ascend step.2.1 step.2.2).map (fun s2 => (step.1, s2))) := rfl

theorem ascend_spec :
    ∀ (stk : List LDD) (vec : List Nat), goodStack stk →
    ∃ vec2 stk2, ascend vec stk = some (vec2, stk2) ∧
      remVecsPop vec stk = remVecs vec2 stk2 ∧ goodStack stk2 := by
  intro stk
  induction stk with
  | nil =>
    intro vec _
    exact ⟨vec, [], rfl, by rw [remVecsPop, remVecs], fun s hs => by simp at hs⟩
  | cons t rest ih =>
    intro vec hgood
    obtain ⟨hct, htb, htt⟩ := hgood t (by simp)
    have hrest : goodStack rest := fun s hs => hgood s (by simp [hs])
    cases t with
    | bot => exact absurd rfl htb
    | top => exact absurd rfl htt
    | node tv td tr =>
      obtain ⟨-, hctr, -, htrt, -⟩ := (canonical_node_iff tv td tr).mp hct
      by_cases htrb : tr = LDD.bot
      · subst htrb
        obtain ⟨vec2, stk2, hasc, hrem, hgood2⟩ := ih vec.tail hrest
        refine ⟨vec2, stk2, ?_, ?_, hgood2⟩
        · show ascend vec (LDD.node tv td LDD.bot :: rest) = _
          rw [ascend]
          simpa using hasc
        · rw [remVecsPop_cons]
          show remVecs vec.tail (rightOf (LDD.node tv td LDD.bot) :: rest) = _
          rw [remVecs_cons]
          simp only [rightOf, elems, List.map_nil, List.nil_append]
          rw [← hrem]
      · refine ⟨vec.tail, tr :: rest, ?_, by rw [remVecsPop_cons]; rfl, ?_⟩
        · show ascend vec (LDD.node tv td tr :: rest) = _
          rw [ascend]
          simp [htrb]
        · intro s hs
          rcases List.mem_cons.mp hs with rfl | hs2
          · exact ⟨hctr, htrb, htrt⟩
          · exact hgood s (by simp [hs2])

theorem iterNext_step :
    ∀ (c : LDD) (vec : List Nat) (rest : List LDD),
    canonical c = true → c ≠ LDD.bot → c ≠ LDD.top → goodStack rest →
    ∃ hd vec2 stk2,
      iterNext (vec, c :: rest) = some (hd, (vec2, stk2)) ∧
      remVecs vec (c :: rest) = hd :: remVecs vec2 stk2 ∧
      goodStack stk2 := by
  intro c
  induction c with
  | bot => intro vec rest _ hb _ _; exact absurd rfl hb
  | top => intro vec rest _ _ ht _; exact absurd rfl ht
  | node v d r ihd ihr =>
    intro vec rest hc _ _ hrest
    obtain ⟨hcd, hcr, hdb, hrt, hord⟩ := (canonical_node_iff v d r).mp hc
    have hgoodc : goodStack (LDD.node v d r :: rest) := by
      intro s hs
      rcases List.mem_cons.mp hs with rfl | hs2
      · exact ⟨hc, by simp, by simp⟩
      · exact hrest s hs2
    by_cases hdt : d = LDD.top
    · subst hdt
      obtain ⟨vec2, stk2, hasc, hrem, hgood2⟩ :=
        ascend_spec (LDD.node v LDD.top r :: rest) (v :: vec) hgoodc
      refine ⟨(v :: vec).reverse, vec2, stk2, ?_, ?_, hgood2⟩
      · rw [iterNext_cons, descend]
        simp [hasc]
      · rw [remVecs_cons]
        have he : elems (LDD.node v LDD.top r) = [v] :: elems r := by simp [elems]
        rw [he]
        simp only [List.map_cons, List.reverse_cons]
        rw [← hrem, remVecsPop_cons]
        show _ ++ _ = (vec.reverse ++ [v]) :: remVecs vec (rightOf (LDD.node v LDD.top r) :: rest)
        rw [remVecs_cons]
        simp only [rightOf, List.cons_append]
    · have hkey : iterNext (vec, LDD.node v d r :: rest)
          = iterNext (v :: vec, d :: LDD.node v d r :: rest) := by
        rw [iterNext_cons, iterNext_cons, descend, if_neg hdt]
      obtain ⟨hd2, vec2, stk2, hstep, hrem, hgood2⟩ :=
        ihd (v :: vec) (LDD.node v d r :: rest) hcd hdb hdt hgoodc
      refine ⟨hd2, vec2, stk2, ?_, ?_, hgood2⟩
      · rw [hkey]; exact hstep
      · rw [remVecs_reshape v d r rest vec]
        exact hrem

theorem iterRun_remVecs :
    ∀ (k : Nat) (vec : List Nat) (stk : List LDD), goodStack stk →
    (remVecs vec stk).length = k →
    iterRun (k + 1) (vec, stk) = some (remVecs vec stk) := by
  intro k
  induction k with
  | zero =>
    intro vec stk hgood hlen
    cases stk with
    | nil =>
      rw [remVecs]
      rfl
    | cons c rest =>
      obtain ⟨hc, hb, ht⟩ := hgood c (by simp)
      obtain ⟨hd, vec2, stk2, -, hrem, -⟩ :=
        iterNext_step c vec rest hc hb ht (fun s hs => hgood s (by simp [hs]))
      rw [hrem] at hlen
      simp at hlen
  | succ k ih =>
    intro vec stk hgood hlen
    cases stk with
    | nil =>
      rw [remVecs] at hlen
      simp at hlen
    | cons c rest =>
      obtain ⟨hc, hb, ht⟩ := hgood c (by simp)
      obtain ⟨hd, vec2, stk2, hstep, hrem, hgood2⟩ :=
        iterNext_step c vec rest hc hb ht (fun s hs => hgood s (by simp [hs]))
      show iterRun (k + 1 + 1) (vec, c :: rest) = _
      rw [iterRun, hstep]
      rw [hrem] at hlen ⊢
      have hlen2 : (remVecs vec2 stk2).length = k := by simpa using hlen
      simp [ih vec2 stk2 hgood2 hlen2]

theorem elems_sorted (t : LDD) (hc : canonical t = true) :
    (elems t).Pairwise (List.Lex (· < ·)) := by
  induction t with
  | bot => simp [elems]
  | top => simp [elems]
  | node v d r ihd ihr =>
    obtain ⟨hcd, hcr, hdb, hrt, hord⟩ := (canonical_node_iff v d r).mp hc
    simp only [elems]
    rw [List.pairwise_append]
    refine ⟨List.Pairwise.map _ (fun a b hab => List.Lex.cons hab) (ihd hcd), ihr hcr, ?_⟩
    intro x hx y hy
    obtain ⟨x2, -, rfl⟩ := List.mem_map.mp hx
    obtain ⟨h, tl, rfl, hlt⟩ := mem_elems_right_head_gt v d r hc y hy
    exact List.Lex.rel hlt

/-- C9: for every LDD that is FALSE or a canonical internal node (the TRUE
terminal is excluded), the vector iterator yields exactly the list `elems t`
— the vectors of the denotation, each exactly once, in strictly ascending
lexicographic order.  The driver needs one step per vector plus a final step
that detects the empty stack. -/
theorem c9_iter_yields_sorted_vectors (t : LDD) (hc : canonical t = true)
    (ht : t ≠ LDD.top) :
    iterRun ((elems t).length + 1) (iterInit t) = some (elems t) ∧
    (∀ x, x ∈ elems t ↔ x ∈ sem t) ∧
    (elems t).Pairwise (List.Lex (· < ·)) := by
  refine ⟨?_, fun x => (mem_sem_iff_mem_elems t x).symm, elems_sorted t hc⟩
  by_cases hb : t = LDD.bot
  · subst hb
    rfl
  · have h0 : iterInit t = ([], [t]) := by simp [iterInit, hb]
    rw [h0]
    have hr : remVecs [] [t] = elems t := by
      rw [remVecs_cons, remVecsPop]
      simp
    have hgood : goodStack [t] := by
      intro s hs
      rcases List.mem_cons.mp hs with rfl | hs2
      · exact ⟨hc, hb, ht⟩
      · simp at hs2
    rw [← hr]
    exact iterRun_remVecs (remVecs [] [t]).length [] [t] hgood rfl

/-- C9 witness: the iterator applied to the canonical LDD of `{⟨1,0⟩, ⟨1,5⟩,
⟨2,2⟩}`. -/
theorem c9_iter_yields_sorted_vectors_witness :
    canonical sampleLDD = true ∧ sampleLDD ≠ LDD.top ∧
    (iterRun ((elems sampleLDD).length + 1) (iterInit sampleLDD) = some (elems sampleLDD) ∧
     (∀ x, x ∈ elems sampleLDD ↔ x ∈ sem sampleLDD) ∧
     (elems sampleLDD).Pairwise (List.Lex (· < ·))) :=
  ⟨by decide, by decide, c9_iter_yields_sorted_vectors sampleLDD (by decide) (by decide)⟩

/-! ## C7: the tag vector built by `compute_meta` -/

theorem foldl_append_eq_flatten (f : Nat → List Nat) (l : List Nat) :
    ∀ acc : List Nat, l.foldl (fun a i => a ++ f i) acc = acc ++ (l.map f).flatten := by
  induction l with
  | nil => intro acc; simp
  | cons x xs ih => intro acc; simp [List.foldl, ih]

theorem levelTags_length (r w : List Nat) (i : Nat) :
    (levelTags r w i).length = if r.contains i && w.contains i then 2 else 1 := by
  simp only [levelTags]
  split_ifs <;> simp_all

theorem flatten_levelTags_length (r w : List Nat) (l : List Nat) :
    ((l.map (levelTags r w)).flatten).length
      = l.length + (l.filter (fun i => r.contains i && w.contains i)).length := by
  induction l with
  | nil => simp
  | cons x xs ih =>
    simp only [List.map_cons, List.flatten_cons, List.length_append, ih, List.length_cons,
      List.filter_cons, levelTags_length]
    split_ifs with h <;> simp [h] <;> omega

theorem mem_lt_maxPlusOne (l : List Nat) (m : Nat) (h : m ∈ l) : m < maxPlusOne l := by
  unfold maxPlusOne
  cases hx : l.max? with
  | none =>
    have : l = [] := by simpa using List.max?_eq_none_iff.mp hx
    simp [this] at h
  | some x =>
    obtain ⟨-, hb⟩ := List.max?_eq_some_iff'.mp hx
    exact Nat.lt_succ_of_le (hb m h)

/-- C7 counterexample: for `read = write = [0]` the guide covers the single
level 0 but holds the two tags `3, 4`, so its length is `2`, not
`max(max(read), max(write)) + 1 = 1`. -/
theorem c7_meta_vector_longer_than_max_plus_one :
    computeMetaVec [0] [0] = [3, 4] ∧
    (computeMetaVec [0] [0]).length ≠ metaLength [0] [0] ∧
    metaLength [0] [0] = 1 := by
  decide

/-- C7 (amended): `compute_meta` builds the concatenation, over the level
indices 0 through `max(max(read), max(write))` inclusive, of the per-level tag
groups — `3, 4` for a read+write level, `1` read only, `2` write only, `0`
unmentioned — so the vector length is the number of covered levels plus one
extra slot per read+write level (not always `max+1`); every index mentioned by
either array lies among the covered levels. -/
theorem c7_compute_meta_characterization (r w : List Nat) :
    computeMetaVec r w = ((List.range (metaLength r w)).map (levelTags r w)).flatten ∧
    (computeMetaVec r w).length
      = metaLength r w
        + ((List.range (metaLength r w)).filter
            (fun i => r.contains i && w.contains i)).length ∧
    (∀ m, m ∈ r ∨ m ∈ w → m < metaLength r w) := by
  refine ⟨by simpa using foldl_append_eq_flatten (levelTags r w) (List.range (metaLength r w)) [], ?_, ?_⟩
  · have h := foldl_append_eq_flatten (levelTags r w) (List.range (metaLength r w)) []
    simp only [computeMetaVec] at *
    rw [h]
    simpa using flatten_levelTags_length r w (List.range (metaLength r w))
  · intro m hm
    rcases hm with hr | hw
    · exact lt_of_lt_of_le (mem_lt_maxPlusOne r m hr) (le_max_left _ _)
    · exact lt_of_lt_of_le (mem_lt_maxPlusOne w m hw) (le_max_right _ _)

/-- C7 witness: the characterization at `read = [0, 2]`, `write = [1]`, where
the guide is `[1, 2, 1]` of length `3 = max+1` (no read+write overlap). -/
theorem c7_compute_meta_characterization_witness :
    (computeMetaVec [0, 2] [1]
        = ((List.range (metaLength [0, 2] [1])).map (levelTags [0, 2] [1])).flatten ∧
      (computeMetaVec [0, 2] [1]).length
        = metaLength [0, 2] [1]
          + ((List.range (metaLength [0, 2] [1])).filter
              (fun i => List.contains [0, 2] i && List.contains [1] i)).length ∧
      (∀ m, m ∈ [0, 2] ∨ m ∈ [1] → m < metaLength [0, 2] [1])) ∧
    computeMetaVec [0, 2] [1] = [1, 2, 1] :=
  ⟨c7_compute_meta_characterization [0, 2] [1], by decide⟩

/-! ## C5: `relational_product` with a FALSE relation -/

/-- C5 counterexample: with `meta = TRUE` the pass-through rule is checked
first, so a FALSE relation does *not* yield FALSE: `relational_product(set,
FALSE, TRUE)` returns `set` itself (at any recursion budget). -/
theorem c5_false_rel_true_meta_returns_set :
    relationalProduct 1 (LDD.node 0 LDD.top LDD.bot) LDD.bot LDD.top
        = some (LDD.node 0 LDD.top LDD.bot) ∧
    relationalProduct 1 (LDD.node 0 LDD.top LDD.bot) LDD.bot LDD.top
        ≠ some LDD.bot := by
  constructor
  · rfl
  · decide

/-- C5 (amended): for every set LDD and every meta LDD that is an internal
node (the meta spine has not terminated), `relational_product(set, FALSE,
meta)` returns FALSE, at every positive recursion budget; when `meta = TRUE`
the pass-through rule wins instead and returns `set`. -/
theorem c5_rel_prod_false_relation (fuel : Nat) (set : LDD) (mv : Nat) (md mr : LDD) :
    relationalProduct (fuel + 1) set LDD.bot (LDD.node mv md mr) = some LDD.bot := by
  cases set <;> rfl

/-! ## C6: `project` on the empty set with a TRUE spec -/

/-- C6: evaluation at the failing input.  `compute_proj` of the empty index
set produces the TRUE terminal, and `project(FALSE, TRUE)` returns TRUE — not
FALSE as the specification (`set = FALSE` is tested first there) and the
documented vector semantics of the function itself require; TRUE denotes `{⟨⟩} ≠ ∅`. -/
theorem c6_project_false_true_returns_true :
    singletonO (computeProjVec []) = some LDD.top ∧
    projectO LDD.bot LDD.top = some LDD.top ∧
    sem LDD.top ≠ sem LDD.bot := by
  refine ⟨rfl, rfl, ?_⟩
  intro h
  have : ([] : List Nat) ∈ sem LDD.bot := h ▸ (by simp [sem])
  simp [sem] at this

/-! ## C1: deduplication of `insert` -/

/-- C1: evaluation at the failing input.  On a fresh store, two consecutive
`insert(0, TRUE, FALSE)` calls return the distinct handles 2 and 3 and leave
two filled slots with one and the same triple: the `insert` of `storage.rs`
never consults a deduplication index (the computed hash is stored but never
looked up), contradicting the claim, the module documentation ("identical
nodes ... have a unique index ... Ldds n and m are identical iff their indices
match") and the `test_hashing` test. -/
theorem c1_insert_allocates_duplicate_triple :
    (storageInsert (fun _ _ _ => 0) initialStore 0 1 0).map Prod.fst = some 2 ∧
    ((storageInsert (fun _ _ _ => 0) initialStore 0 1 0).bind
      (fun p => storageInsert (fun _ _ _ => 0) p.2 0 1 0)).map
        (fun p => (p.1, sameTripleFilled p.2 2 3)) = some (3, true) := by
  decide

/-! ## C8: the collection countdown of `insert` -/

/-- C8 counterexample: on a store with a free slot, `insert` allocates a
genuinely new node (no filled slot held the triple `(7, 1, 0)` before; slot 2
holds it afterwards and is returned) yet `count_until_collection` stays at 5 —
the counter is only decremented in the branch that grows the table. -/
theorem c8_freelist_insert_keeps_counter :
    hasFilledTriple stFree 7 1 0 = false ∧
    stFree.countUntilCollection = 5 ∧
    (storageInsert (fun _ _ _ => 0) stFree 7 1 0).map
        (fun p => (p.1, p.2.countUntilCollection, hasFilledTriple p.2 7 1 0))
      = some (2, 5, true) := by
  decide

/-- C8 (amended): on a successful `insert`, the counter decreases by one
exactly when the allocation grows the table (`free = none`); an allocation
that reuses a freelist slot leaves the counter unchanged; and when the counter
is zero at entry with automatic collection enabled, `insert` first runs
`garbage_collect` (observable: the cleared cache) and resets the counter to
the post-collection table length, after which its own allocation may
decrement it again. -/
theorem c8_insert_counter_behaviour (hashFn : Nat → Nat → Nat → Nat) (st : StoreState)
    (v d r i : Nat) (st2 : StoreState)
    (hsucc : storageInsert hashFn st v d r = some (i, st2)) :
    (st.countUntilCollection ≠ 0 → st.free = none →
       st2.countUntilCollection + 1 = st.countUntilCollection ∧
       st2.table.length = st.table.length + 1) ∧
    (∀ f, st.countUntilCollection ≠ 0 → st.free = some f →
       st2.countUntilCollection = st.countUntilCollection ∧
       st2.table.length = st.table.length ∧ i = f) ∧
    (st.countUntilCollection = 0 → st.enableGC = true →
       st2.cache = [] ∧
       st2.countUntilCollection
         = (if (garbageCollect st).free = none
            then (garbageCollect st).table.length - 1
            else (garbageCollect st).table.length)) := by
  unfold storageInsert at hsucc
  by_cases hassert : insertAsserts st.table v d r = true
  · rw [if_pos hassert] at hsucc
    refine ⟨?_, ?_, ?_⟩
    · intro hc hf
      rw [if_neg hc] at hsucc
      simp only [hf, Option.some.injEq, Prod.mk.injEq] at hsucc
      obtain ⟨-, rfl⟩ := hsucc
      constructor
      · simp
        omega
      · simp
    · intro f hc hf
      rw [if_neg hc] at hsucc
      simp only [hf, Option.some.injEq, Prod.mk.injEq] at hsucc
      obtain ⟨rfl, rfl⟩ := hsucc
      refine ⟨rfl, ?_, rfl⟩
      simp
    · intro hc hgc
      rw [if_pos hc, if_pos hgc] at hsucc
      cases hfree : (garbageCollect st).free with
      | none =>
        simp only [hfree, Option.some.injEq, Prod.mk.injEq] at hsucc
        obtain ⟨-, rfl⟩ := hsucc
        exact ⟨rfl, by simp [hfree]⟩
      | some f2 =>
        simp only [hfree, Option.some.injEq, Prod.mk.injEq] at hsucc
        obtain ⟨-, rfl⟩ := hsucc
        exact ⟨rfl, by simp [hfree]⟩
  · rw [if_neg hassert] at hsucc
    exact absurd hsucc (by simp)

/-- C8 witness: the amended claim at a concrete table-growing insertion. -/
theorem c8_insert_counter_behaviour_witness :
    storageInsert (fun _ _ _ => 0) stW 0 1 0 = some (2, stWres) ∧
    ((stW.countUntilCollection ≠ 0 → stW.free = none →
       stWres.countUntilCollection + 1 = stW.countUntilCollection ∧
       stWres.table.length = stW.table.length + 1) ∧
    (∀ f, stW.countUntilCollection ≠ 0 → stW.free = some f →
       stWres.countUntilCollection = stW.countUntilCollection ∧
       stWres.table.length = stW.table.length ∧ 2 = f) ∧
    (stW.countUntilCollection = 0 → stW.enableGC = true →
       stWres.cache = [] ∧
       stWres.countUntilCollection
         = (if (garbageCollect stW).free = none
            then (garbageCollect stW).table.length - 1
            else (garbageCollect stW).table.length))) :=
  ⟨by decide, c8_insert_counter_behaviour (fun _ _ _ => 0) stW 0 1 0 2 stWres (by decide)⟩

/-! ## C4: garbage collection — marking lemmas -/

theorem setMarkedAt_length (t : List StoreNode) (i : Nat) :
    (setMarkedAt t i).length = t.length := by
  unfold setMarkedAt
  cases t[i]? <;> simp

theorem getElem?_setMarkedAt_ne (t : List StoreNode) (i j : Nat) (h : i ≠ j) :
    (setMarkedAt t i)[j]? = t[j]? := by
  unfold setMarkedAt
  cases t[i]? <;> simp [List.getElem?_set_ne h]

theorem filledAt_setMarkedAt (t : List StoreNode) (i j : Nat) :
    filledAt (setMarkedAt t i) j = filledAt t j := by
  by_cases h : i = j
  · subst h
    unfold setMarkedAt filledAt
    cases hg : t[i]? with
    | none => simp [hg]
    | some n => simp [List.getElem?_set_self (by exact (List.getElem?_eq_some_iff.mp hg).1), hg]
  · simp [filledAt, getElem?_setMarkedAt_ne t i j h]

theorem nodeDown_setMarkedAt (t : List StoreNode) (i j : Nat) :
    nodeDown (setMarkedAt t i) j = nodeDown t j := by
  by_cases h : i = j
  · subst h
    unfold setMarkedAt nodeDown
    cases hg : t[i]? with
    | none => simp [hg]
    | some n => simp [List.getElem?_set_self (by exact (List.getElem?_eq_some_iff.mp hg).1), hg]
  · simp [nodeDown, getElem?_setMarkedAt_ne t i j h]

theorem nodeRight_setMarkedAt (t : List StoreNode) (i j : Nat) :
    nodeRight (setMarkedAt t i) j = nodeRight t j := by
  by_cases h : i = j
  · subst h
    unfold setMarkedAt nodeRight
    cases hg : t[i]? with
    | none => simp [hg]
    | some n => simp [List.getElem?_set_self (by exact (List.getElem?_eq_some_iff.mp hg).1), hg]
  · simp [nodeRight, getElem?_setMarkedAt_ne t i j h]

theorem markedAt_setMarkedAt_self (t : List StoreNode) (i : Nat) (h : i < t.length) :
    markedAt (setMarkedAt t i) i = true := by
  unfold setMarkedAt markedAt
  cases hg : t[i]? with
  | none => exact absurd hg (by simp [h])
  | some n => simp [List.getElem?_set_self (by exact (List.getElem?_eq_some_iff.mp hg).1), hg]

theorem markedAt_setMarkedAt_of (t : List StoreNode) (i j : Nat)
    (h : markedAt t j = true) : markedAt (setMarkedAt t i) j = true := by
  by_cases hij : i = j
  · subst hij
    unfold setMarkedAt markedAt
    cases hg : t[i]? with
    | none => simpa [markedAt, hg] using h
    | some n => simp [List.getElem?_set_self (by exact (List.getElem?_eq_some_iff.mp hg).1), hg]
  · simpa [markedAt, getElem?_setMarkedAt_ne t i j hij] using h

theorem markedAt_setMarkedAt_elim (t : List StoreNode) (i j : Nat)
    (h : markedAt (setMarkedAt t i) j = true) : j = i ∨ markedAt t j = true := by
  by_cases hij : i = j
  · exact Or.inl hij.symm
  · exact Or.inr (by simpa [markedAt, getElem?_setMarkedAt_ne t i j hij] using h)

theorem countUnmarked_set (t : List StoreNode) (i : Nat) (n : StoreNode)
    (hg : t[i]? = some n) (hm : n.marked = false) :
    countUnmarked (setMarkedAt t i) + 1 = countUnmarked t := by
  induction t generalizing i with
  | nil => simp at hg
  | cons hd tl ih =>
    cases i with
    | zero =>
      simp only [List.getElem?_cons_zero, Option.some.injEq] at hg
      subst hg
      simp [setMarkedAt, countUnmarked, List.countP_cons, hm]
    | succ k =>
      simp only [List.getElem?_cons_succ] at hg
      have h1 : setMarkedAt (hd :: tl) (k + 1) = hd :: setMarkedAt tl k := by
        unfold setMarkedAt
        simp [hg]
      rw [h1]
      have h2 := ih k hg
      simp only [countUnmarked, List.countP_cons] at h2 ⊢
      omega

theorem fieldsEq_refl (t : List StoreNode) : fieldsEq t t :=
  ⟨rfl, fun _ => rfl, fun _ => rfl, fun _ => rfl⟩

theorem fieldsEq_trans (a b c : List StoreNode) (h1 : fieldsEq a b) (h2 : fieldsEq b c) :
    fieldsEq a c :=
  ⟨h1.1.trans h2.1,
   fun i => (h1.2.1 i).trans (h2.2.1 i),
   fun i => (h1.2.2.1 i).trans (h2.2.2.1 i),
   fun i => (h1.2.2.2 i).trans (h2.2.2.2 i)⟩

theorem fieldsEq_setMarkedAt (t : List StoreNode) (i : Nat) :
    fieldsEq (setMarkedAt t i) t :=
  ⟨setMarkedAt_length t i, filledAt_setMarkedAt t i,
   nodeDown_setMarkedAt t i, nodeRight_setMarkedAt t i⟩

theorem tableClosed_of_fieldsEq (t t' : List StoreNode) (h : fieldsEq t t')
    (hc : tableClosed t') : tableClosed t := by
  intro i hi hf h0 h1
  obtain ⟨hlen, hfill, hdown, hright⟩ := h
  rw [hlen] at hi
  rw [hfill] at hf
  obtain ⟨a1, a2, a3, a4⟩ := hc i hi hf h0 h1
  exact ⟨by rw [hdown, hlen]; exact a1, by rw [hfill, hdown]; exact a2,
         by rw [hright, hlen]; exact a3, by rw [hfill, hright]; exact a4⟩

theorem Reach_congr (t t' : List StoreNode) (roots : List Nat) (j : Nat)
    (hd : ∀ i, nodeDown t i = nodeDown t' i) (hr : ∀ i, nodeRight t i = nodeRight t' i)
    (h : Reach t roots j) : Reach t' roots j := by
  induction h with
  | root hm => exact Reach.root hm
  | down _ h0 h1 ih => exact hd _ ▸ Reach.down ih h0 h1
  | right _ h0 h1 ih => exact hr _ ▸ Reach.right ih h0 h1

theorem Reach_mono_roots (t : List StoreNode) (roots roots' : List Nat) (j : Nat)
    (hsub : ∀ x, x ∈ roots → x ∈ roots') (h : Reach t roots j) : Reach t roots' j := by
  induction h with
  | root hm => exact Reach.root (hsub _ hm)
  | down _ h0 h1 ih => exact Reach.down ih h0 h1
  | right _ h0 h1 ih => exact Reach.right ih h0 h1

theorem Reach_cons_of_child (t : List StoreNode) (c : Nat) (rest : List Nat) (j : Nat)
    (h0 : c ≠ 0) (h1 : c ≠ 1)
    (h : Reach t (nodeRight t c :: nodeDown t c :: rest) j) : Reach t (c :: rest) j := by
  induction h with
  | root hm =>
    rcases List.mem_cons.mp hm with heq | hm2
    · exact heq ▸ Reach.right (Reach.root (List.mem_cons_self c rest)) h0 h1
    · rcases List.mem_cons.mp hm2 with heq | hm3
      · exact heq ▸ Reach.down (Reach.root (List.mem_cons_self c rest)) h0 h1
      · exact Reach.root (List.mem_cons_of_mem c hm3)
  | down _ i0 i1 ih => exact Reach.down ih i0 i1
  | right _ i0 i1 ih => exact Reach.right ih i0 i1

theorem reach_bounded_filled (t : List StoreNode) (roots : List Nat) (j : Nat)
    (hroots : ∀ r ∈ roots, r < t.length ∧ filledAt t r = true)
    (hclosed : tableClosed t) (h : Reach t roots j) :
    j < t.length ∧ filledAt t j = true := by
  induction h with
  | root hm => exact hroots _ hm
  | down h h0 h1 ih =>
    obtain ⟨a1, a2, _, _⟩ := hclosed _ ih.1 ih.2 h0 h1
    exact ⟨a1, a2⟩
  | right h h0 h1 ih =>
    obtain ⟨_, _, a3, a4⟩ := hclosed _ ih.1 ih.2 h0 h1
    exact ⟨a3, a4⟩

theorem markNodeF_fields (fuel : Nat) (t : List StoreNode) (stack : List Nat) :
    fieldsEq (markNodeF fuel t stack) t := by
  induction fuel generalizing t stack with
  | zero => cases stack <;> exact fieldsEq_refl _
  | succ f ih =>
    cases stack with
    | nil => exact fieldsEq_refl _
    | cons c rest =>
      rw [markNodeF]
      by_cases hm : markedAt t c = true
      · rw [if_pos hm]
        exact ih t rest
      · rw [if_neg hm]
        by_cases hterm : c = 0 ∨ c = 1
        · rw [if_pos hterm]
          exact fieldsEq_trans _ _ _ (ih _ _) (fieldsEq_setMarkedAt t c)
        · rw [if_neg hterm]
          exact fieldsEq_trans _ _ _ (ih _ _) (fieldsEq_setMarkedAt t c)

theorem markNodeF_mono (fuel : Nat) (t : List StoreNode) (stack : List Nat) (j : Nat)
    (h : markedAt t j = true) : markedAt (markNodeF fuel t stack) j = true := by
  induction fuel generalizing t stack with
  | zero => cases stack <;> exact h
  | succ f ih =>
    cases stack with
    | nil => exact h
    | cons c rest =>
      rw [markNodeF]
      by_cases hm : markedAt t c = true
      · rw [if_pos hm]
        exact ih t rest h
      · rw [if_neg hm]
        by_cases hterm : c = 0 ∨ c = 1
        · rw [if_pos hterm]
          exact ih _ _ (markedAt_setMarkedAt_of t c j h)
        · rw [if_neg hterm]
          exact ih _ _ (markedAt_setMarkedAt_of t c j h)

theorem markNodeF_sound (fuel : Nat) (t : List StoreNode) (stack : List Nat) (j : Nat)
    (h : markedAt (markNodeF fuel t stack) j = true) :
    markedAt t j = true ∨ Reach t stack j := by
  induction fuel generalizing t stack with
  | zero => cases stack <;> exact Or.inl h
  | succ f ih =>
    cases stack with
    | nil => exact Or.inl h
    | cons c rest =>
      rw [markNodeF] at h
      by_cases hm : markedAt t c = true
      · rw [if_pos hm] at h
        rcases ih t rest h with h2 | h2
        · exact Or.inl h2
        · exact Or.inr (Reach_mono_roots t rest (c :: rest) j
            (fun x hx => List.mem_cons_of_mem c hx) h2)
      · rw [if_neg hm] at h
        by_cases hterm : c = 0 ∨ c = 1
        · rw [if_pos hterm] at h
          rcases ih _ _ h with h2 | h2
          · rcases markedAt_setMarkedAt_elim t c j h2 with heq | h3
            · exact Or.inr (Reach.root (heq ▸ List.mem_cons_self c rest))
            · exact Or.inl h3
          · refine Or.inr (Reach_mono_roots t rest (c :: rest) j
              (fun x hx => List.mem_cons_of_mem c hx) ?_)
            exact Reach_congr _ t rest j (nodeDown_setMarkedAt t c)
              (nodeRight_setMarkedAt t c) h2
        · rw [if_neg hterm] at h
          push_neg at hterm
          rcases ih _ _ h with h2 | h2
          · rcases markedAt_setMarkedAt_elim t c j h2 with heq | h3
            · exact Or.inr (Reach.root (heq ▸ List.mem_cons_self c rest))
            · exact Or.inl h3
          · refine Or.inr (Reach_cons_of_child t c rest j hterm.1 hterm.2 ?_)
            exact Reach_congr _ t _ j (nodeDown_setMarkedAt t c)
              (nodeRight_setMarkedAt t c) h2

theorem markClosedUpTo_of_head_marked (t : List StoreNode) (c : Nat) (rest : List Nat)
    (hm : markedAt t c = true) (h : markClosedUpTo t (c :: rest)) :
    markClosedUpTo t rest := by
  intro i hi h0 h1
  obtain ⟨hd, hr⟩ := h i hi h0 h1
  constructor
  · rcases hd with hd | hd
    · exact Or.inl hd
    · rcases List.mem_cons.mp hd with heq | hd2
      · exact Or.inl (heq ▸ hm)
      · exact Or.inr hd2
  · rcases hr with hr | hr
    · exact Or.inl hr
    · rcases List.mem_cons.mp hr with heq | hr2
      · exact Or.inl (heq ▸ hm)
      · exact Or.inr hr2

theorem markNodeF_complete (fuel : Nat) (t : List StoreNode) (stack : List Nat)
    (hfuel : 2 * countUnmarked t + stack.length ≤ fuel)
    (hstack : ∀ s ∈ stack, s < t.length ∧ filledAt t s = true)
    (hclosed : tableClosed t)
    (hinv : markClosedUpTo t stack) :
    markClosedUpTo (markNodeF fuel t stack) [] ∧
    (∀ s ∈ stack, markedAt (markNodeF fuel t stack) s = true) := by
  induction fuel generalizing t stack with
  | zero =>
    cases stack with
    | nil => exact ⟨hinv, by simp⟩
    | cons c rest => simp at hfuel
  | succ f ih =>
    cases stack with
    | nil => exact ⟨hinv, by simp⟩
    | cons c rest =>
      rw [markNodeF]
      by_cases hm : markedAt t c = true
      · rw [if_pos hm]
        have hres := ih t rest (by simp at hfuel ⊢; omega)
          (fun s hs => hstack s (List.mem_cons_of_mem c hs)) hclosed
          (markClosedUpTo_of_head_marked t c rest hm hinv)
        refine ⟨hres.1, fun s hs => ?_⟩
        rcases List.mem_cons.mp hs with heq | hs2
        · exact heq ▸ markNodeF_mono f t rest c hm
        · exact hres.2 s hs2
      · rw [if_neg hm]
        have hc : c < t.length := (hstack c (List.mem_cons_self c rest)).1
        have hcf : filledAt t c = true := (hstack c (List.mem_cons_self c rest)).2
        have hgc : t[c]? = some t[c] := List.getElem?_eq_getElem hc
        have hmc : (t[c]).marked = false := by
          have := Bool.eq_false_iff.mpr hm
          simpa [markedAt, hgc] using this
        have hcount : countUnmarked (setMarkedAt t c) + 1 = countUnmarked t :=
          countUnmarked_set t c (t[c]) hgc hmc
        have hself : markedAt (setMarkedAt t c) c = true := markedAt_setMarkedAt_self t c hc
        have hclosed2 : tableClosed (setMarkedAt t c) :=
          tableClosed_of_fieldsEq _ _ (fieldsEq_setMarkedAt t c) hclosed
        by_cases hterm : c = 0 ∨ c = 1
        · rw [if_pos hterm]
          have hres := ih (setMarkedAt t c) rest
            (by simp only [List.length_cons] at hfuel; omega)
            (fun s hs => by
              have := hstack s (List.mem_cons_of_mem c hs)
              exact ⟨by rw [setMarkedAt_length]; exact this.1,
                     by rw [filledAt_setMarkedAt]; exact this.2⟩)
            hclosed2
            (by
              intro i hi h0 h1
              rcases markedAt_setMarkedAt_elim t c i hi with heq | hmi
              · exact absurd hterm (by subst heq; push_neg; exact ⟨h0, h1⟩)
              · obtain ⟨hd, hr⟩ := hinv i hmi h0 h1
                rw [nodeDown_setMarkedAt, nodeRight_setMarkedAt]
                constructor
                · rcases hd with hd | hd
                  · exact Or.inl (markedAt_setMarkedAt_of t c _ hd)
                  · rcases List.mem_cons.mp hd with heq | hd2
                    · exact Or.inl (heq ▸ hself)
                    · exact Or.inr hd2
                · rcases hr with hr | hr
                  · exact Or.inl (markedAt_setMarkedAt_of t c _ hr)
                  · rcases List.mem_cons.mp hr with heq | hr2
                    · exact Or.inl (heq ▸ hself)
                    · exact Or.inr hr2)
          refine ⟨hres.1, fun s hs => ?_⟩
          rcases List.mem_cons.mp hs with heq | hs2
          · exact heq ▸ markNodeF_mono f _ rest c hself
          · exact hres.2 s hs2
        · rw [if_neg hterm]
          push_neg at hterm
          have hchild := hclosed c hc hcf hterm.1 hterm.2
          have hres := ih (setMarkedAt t c) (nodeRight t c :: nodeDown t c :: rest)
            (by simp only [List.length_cons] at hfuel ⊢; omega)
            (fun s hs => by
              rw [setMarkedAt_length, filledAt_setMarkedAt]
              rcases List.mem_cons.mp hs with heq | hs2
              · exact heq ▸ ⟨hchild.2.2.1, hchild.2.2.2⟩
              · rcases List.mem_cons.mp hs2 with heq | hs3
                · exact heq ▸ ⟨hchild.1, hchild.2.1⟩
                · exact hstack s (List.mem_cons_of_mem c hs3))
            hclosed2
            (by
              intro i hi h0 h1
              rw [nodeDown_setMarkedAt, nodeRight_setMarkedAt]
              rcases markedAt_setMarkedAt_elim t c i hi with heq | hmi
              · subst heq
                exact ⟨Or.inr (List.mem_cons_of_mem _ (List.mem_cons_self _ _)),
                       Or.inr (List.mem_cons_self _ _)⟩
              · obtain ⟨hd, hr⟩ := hinv i hmi h0 h1
                constructor
                · rcases hd with hd | hd
                  · exact Or.inl (markedAt_setMarkedAt_of t c _ hd)
                  · rcases List.mem_cons.mp hd with heq | hd2
                    · exact Or.inl (heq ▸ hself)
                    · exact Or.inr (List.mem_cons_of_mem _ (List.mem_cons_of_mem _ hd2))
                · rcases hr with hr | hr
                  · exact Or.inl (markedAt_setMarkedAt_of t c _ hr)
                  · rcases List.mem_cons.mp hr with heq | hr2
                    · exact Or.inl (heq ▸ hself)
                    · exact Or.inr (List.mem_cons_of_mem _ (List.mem_cons_of_mem _ hr2)))
          refine ⟨hres.1, fun s hs => ?_⟩
          rcases List.mem_cons.mp hs with heq | hs2
          · exact heq ▸ markNodeF_mono f _ _ c hself
          · exact hres.2 s (List.mem_cons_of_mem _ (List.mem_cons_of_mem _ hs2))

theorem markClosedUpTo_weaken (t : List StoreNode) (s : List Nat)
    (h : markClosedUpTo t []) : markClosedUpTo t s := by
  intro i hi h0 h1
  obtain ⟨hd, hr⟩ := h i hi h0 h1
  constructor
  · rcases hd with hd | hd
    · exact Or.inl hd
    · simp at hd
  · rcases hr with hr | hr
    · exact Or.inl hr
    · simp at hr

theorem markFold_spec (rs : List Nat) (table : List StoreNode) (roots : List Nat)
    (t : List StoreNode)
    (hroots : ∀ r ∈ roots, r < table.length ∧ filledAt table r = true)
    (hsub : ∀ r ∈ rs, r ∈ roots)
    (hfields : fieldsEq t table)
    (hclosed : tableClosed t)
    (hmc : markClosedUpTo t [])
    (hsound : ∀ j, markedAt t j = true → Reach table roots j) :
    fieldsEq (rs.foldl (fun a r => markNodeF (2 * a.length + 2) a [r]) t) table ∧
    markClosedUpTo (rs.foldl (fun a r => markNodeF (2 * a.length + 2) a [r]) t) [] ∧
    (∀ j, markedAt (rs.foldl (fun a r => markNodeF (2 * a.length + 2) a [r]) t) j = true →
       Reach table roots j) ∧
    (∀ r ∈ rs, markedAt (rs.foldl (fun a r => markNodeF (2 * a.length + 2) a [r]) t) r = true) ∧
    (∀ j, markedAt t j = true →
       markedAt (rs.foldl (fun a r => markNodeF (2 * a.length + 2) a [r]) t) j = true) := by
  induction rs generalizing t with
  | nil => exact ⟨hfields, hmc, hsound, by simp, fun j h => h⟩
  | cons r rs' ih =>
    have hrR : r ∈ roots := hsub r (List.mem_cons_self r rs')
    have hrT := hroots r hrR
    have hcomp := markNodeF_complete (2 * t.length + 2) t [r]
      (by
        have := List.countP_le_length (p := fun n => !n.marked) (l := t)
        simp only [List.length_cons, List.length_nil, countUnmarked]
        omega)
      (fun s hs => by
        rcases List.mem_cons.mp hs with heq | hs2
        · subst heq
          exact ⟨by rw [hfields.1]; exact hrT.1, by rw [hfields.2.1]; exact hrT.2⟩
        · simp at hs2)
      hclosed
      (markClosedUpTo_weaken t [r] hmc)
    have hfields2 : fieldsEq (markNodeF (2 * t.length + 2) t [r]) table :=
      fieldsEq_trans _ _ _ (markNodeF_fields _ t [r]) hfields
    have hclosed2 : tableClosed (markNodeF (2 * t.length + 2) t [r]) :=
      tableClosed_of_fieldsEq _ _ (markNodeF_fields _ t [r]) hclosed
    have hsound2 : ∀ j, markedAt (markNodeF (2 * t.length + 2) t [r]) j = true →
        Reach table roots j := by
      intro j hj
      rcases markNodeF_sound _ t [r] j hj with h2 | h2
      · exact hsound j h2
      · refine Reach_mono_roots table [r] roots j (by simpa using hrR) ?_
        exact Reach_congr t table [r] j (fun i => (hfields.2.2.1 i))
          (fun i => (hfields.2.2.2 i)) h2
    have hres := ih (markNodeF (2 * t.length + 2) t [r])
      (fun x hx => hsub x (List.mem_cons_of_mem r hx))
      hfields2 hclosed2 hcomp.1 hsound2
    refine ⟨hres.1, hres.2.1, hres.2.2.1, fun x hx => ?_, fun j hj => ?_⟩
    · rcases List.mem_cons.mp hx with heq | hx2
      · exact heq ▸ hres.2.2.2.2 r (hcomp.2 r (List.mem_cons_self r []))
      · exact hres.2.2.2.1 x hx2
    · exact hres.2.2.2.2 j (markNodeF_mono _ t [r] j hj)

theorem markedAt_false_of_unmarked (table : List StoreNode)
    (hunm : ∀ n ∈ table, n.marked = false) (j : Nat) : markedAt table j = false := by
  unfold markedAt
  cases hg : table[j]? with
  | none => rfl
  | some n => exact hunm n (List.getElem?_mem hg)

theorem markPhase_spec (table : List StoreNode) (roots : List Nat)
    (hroots : ∀ r ∈ roots, r < table.length ∧ filledAt table r = true)
    (hclosed : tableClosed table)
    (hunm : ∀ n ∈ table, n.marked = false) :
    fieldsEq (markPhase table roots) table ∧
    (∀ j, markedAt (markPhase table roots) j = true ↔ Reach table roots j) := by
  have hres := markFold_spec roots table roots table hroots (fun r hr => hr)
    (fieldsEq_refl table) hclosed
    (fun i hi _ _ => absurd hi (by simp [markedAt_false_of_unmarked table hunm i]))
    (fun j hj => absurd hj (by simp [markedAt_false_of_unmarked table hunm j]))
  refine ⟨hres.1, fun j => ⟨fun hj => hres.2.2.1 j hj, fun hj => ?_⟩⟩
  induction hj with
  | root hm => exact hres.2.2.2.1 _ hm
  | down h h0 h1 ihr =>
    have := (hres.2.1 _ ihr h0 h1).1
    rcases this with h2 | h2
    · exact (hres.1.2.2.1 _) ▸ h2
    · simp at h2
  | right h h0 h1 ihr =>
    have := (hres.2.1 _ ihr h0 h1).2
    rcases this with h2 | h2
    · exact (hres.1.2.2.2 _) ▸ h2
    · simp at h2

theorem filledAt_cons_succ (x : StoreNode) (xs : List StoreNode) (k : Nat) :
    filledAt (x :: xs) (k + 1) = filledAt xs k := by
  simp [filledAt]

theorem markedAt_cons_succ (x : StoreNode) (xs : List StoreNode) (k : Nat) :
    markedAt (x :: xs) (k + 1) = markedAt xs k := by
  simp [markedAt]

theorem nodeDown_cons_succ (x : StoreNode) (xs : List StoreNode) (k : Nat) :
    nodeDown (x :: xs) (k + 1) = nodeDown xs k := by
  simp [nodeDown]

theorem nodeRight_cons_succ (x : StoreNode) (xs : List StoreNode) (k : Nat) :
    nodeRight (x :: xs) (k + 1) = nodeRight xs k := by
  simp [nodeRight]

theorem sweep_cons_marked (n : StoreNode) (rest : List StoreNode) (i : Nat)
    (free : Option Nat) (hm : n.marked = true) :
    (sweep i free (n :: rest)).1
      = { n with marked := false } :: (sweep (i + 1) free rest).1 := by
  simp [sweep, hm]

theorem sweep_cons_unmarked (n : StoreNode) (rest : List StoreNode) (i : Nat)
    (free : Option Nat) (hm : n.marked = false) :
    (sweep i free (n :: rest)).1
      = { n with right := (match free with | some nx => nx | none => i), filled := false }
          :: (sweep (i + 1) (some i) rest).1 := by
  simp [sweep, hm]

theorem sweep_filledAt (l : List StoreNode) : ∀ (i : Nat) (free : Option Nat) (j : Nat),
    filledAt (sweep i free l).1 j = (markedAt l j && filledAt l j) := by
  induction l with
  | nil => intro i free j; simp [sweep, filledAt, markedAt]
  | cons n rest ih =>
    intro i free j
    by_cases hm : n.marked = true
    · rw [sweep_cons_marked n rest i free hm]
      cases j with
      | zero => simp [filledAt, markedAt, hm]
      | succ k => rw [filledAt_cons_succ, markedAt_cons_succ, filledAt_cons_succ, ih]
    · rw [sweep_cons_unmarked n rest i free (Bool.eq_false_iff.mpr hm)]
      cases j with
      | zero => simp [filledAt, markedAt, Bool.eq_false_iff.mpr hm]
      | succ k => rw [filledAt_cons_succ, markedAt_cons_succ, filledAt_cons_succ, ih]

theorem sweep_nodeDown (l : List StoreNode) : ∀ (i : Nat) (free : Option Nat) (j : Nat),
    markedAt l j = true → nodeDown (sweep i free l).1 j = nodeDown l j := by
  induction l with
  | nil => intro i free j h; simp [markedAt] at h
  | cons n rest ih =>
    intro i free j h
    by_cases hm : n.marked = true
    · rw [sweep_cons_marked n rest i free hm]
      cases j with
      | zero => simp [nodeDown]
      | succ k =>
        rw [nodeDown_cons_succ, nodeDown_cons_succ]
        exact ih _ _ k (by rwa [markedAt_cons_succ] at h)
    · rw [sweep_cons_unmarked n rest i free (Bool.eq_false_iff.mpr hm)]
      cases j with
      | zero => simp [markedAt, hm] at h
      | succ k =>
        rw [nodeDown_cons_succ, nodeDown_cons_succ]
        exact ih _ _ k (by rwa [markedAt_cons_succ] at h)

theorem sweep_nodeRight (l : List StoreNode) : ∀ (i : Nat) (free : Option Nat) (j : Nat),
    markedAt l j = true → nodeRight (sweep i free l).1 j = nodeRight l j := by
  induction l with
  | nil => intro i free j h; simp [markedAt] at h
  | cons n rest ih =>
    intro i free j h
    by_cases hm : n.marked = true
    · rw [sweep_cons_marked n rest i free hm]
      cases j with
      | zero => simp [nodeRight]
      | succ k =>
        rw [nodeRight_cons_succ, nodeRight_cons_succ]
        exact ih _ _ k (by rwa [markedAt_cons_succ] at h)
    · rw [sweep_cons_unmarked n rest i free (Bool.eq_false_iff.mpr hm)]
      cases j with
      | zero => simp [markedAt, hm] at h
      | succ k =>
        rw [nodeRight_cons_succ, nodeRight_cons_succ]
        exact ih _ _ k (by rwa [markedAt_cons_succ] at h)

theorem tableClosed_of_all (table : List StoreNode)
    (h : ((List.range table.length).all (fun i =>
       !(filledAt table i) || (i == 0) || (i == 1) ||
       (decide (nodeDown table i < table.length) && filledAt table (nodeDown table i) &&
        decide (nodeRight table i < table.length) && filledAt table (nodeRight table i)))) = true) :
    tableClosed table := by
  intro i hi hf h0 h1
  have hb := List.all_eq_true.mp h i (List.mem_range.mpr hi)
  simp only [Bool.or_eq_true, Bool.and_eq_true, Bool.not_eq_true', beq_iff_eq,
    decide_eq_true_eq] at hb
  rcases hb with ((hb | hb) | hb) | hb
  · rw [hf] at hb
    exact absurd hb (by simp)
  · exact absurd hb h0
  · exact absurd hb h1
  · exact ⟨hb.1.1.1, hb.1.1.2, hb.1.2, hb.2⟩

/-- C4: after `garbage_collect`, a node-table slot is filled iff it was
transitively reachable through the `down`/`right` fields from some live
protection-set entry at the start of the call, and consequently every filled
slot's `down` and `right` fields reference filled slots.  Hypotheses: the live
roots are in-range filled slots, the filled slots are closed (children
in-range and filled), all mark bits are clear (the standing state between
collections), the `empty_set` terminal 0 is protected (the store itself holds
that handle) and the terminal slots carry null fields, as established by
`Storage::new`. -/
theorem c4_gc_filled_iff_reachable (st : StoreState)
    (hroots : ∀ r ∈ st.roots, r < st.table.length ∧ filledAt st.table r = true)
    (hclosed : tableClosed st.table)
    (hunm : ∀ n ∈ st.table, n.marked = false)
    (h0 : 0 ∈ st.roots)
    (hterm : nodeDown st.table 0 = 0 ∧ nodeRight st.table 0 = 0 ∧
             nodeDown st.table 1 = 0 ∧ nodeRight st.table 1 = 0) :
    (∀ i, filledAt (garbageCollect st).table i = true ↔ Reach st.table st.roots i) ∧
    (∀ i, filledAt (garbageCollect st).table i = true →
       filledAt (garbageCollect st).table (nodeDown (garbageCollect st).table i) = true ∧
       filledAt (garbageCollect st).table (nodeRight (garbageCollect st).table i) = true) := by
  have hmp := markPhase_spec st.table st.roots hroots hclosed hunm
  have htab : (garbageCollect st).table
      = (sweep 0 st.free (markPhase st.table st.roots)).1 := rfl
  have hchar : ∀ i, filledAt (garbageCollect st).table i = true ↔
      Reach st.table st.roots i := by
    intro i
    rw [htab, sweep_filledAt, Bool.and_eq_true]
    constructor
    · intro h
      exact (hmp.2 i).mp h.1
    · intro h
      refine ⟨(hmp.2 i).mpr h, ?_⟩
      rw [hmp.1.2.1 i]
      exact (reach_bounded_filled st.table st.roots i hroots hclosed h).2
  refine ⟨hchar, fun i hf => ?_⟩
  have hre := (hchar i).mp hf
  have hmarked := (hmp.2 i).mpr hre
  have hdowneq : nodeDown (garbageCollect st).table i = nodeDown st.table i := by
    rw [htab, sweep_nodeDown _ _ _ _ hmarked]
    exact hmp.1.2.2.1 i
  have hrighteq : nodeRight (garbageCollect st).table i = nodeRight st.table i := by
    rw [htab, sweep_nodeRight _ _ _ _ hmarked]
    exact hmp.1.2.2.2 i
  by_cases hi0 : i = 0
  · subst hi0
    rw [hdowneq, hrighteq, hterm.1, hterm.2.1]
    exact ⟨hf, hf⟩
  · by_cases hi1 : i = 1
    · subst hi1
      rw [hdowneq, hrighteq, hterm.2.2.1, hterm.2.2.2]
      have := (hchar 0).mpr (Reach.root h0)
      exact ⟨this, this⟩
    · rw [hdowneq, hrighteq]
      exact ⟨(hchar _).mpr (Reach.down hre hi0 hi1),
             (hchar _).mpr (Reach.right hre hi0 hi1)⟩

/-- C4 witness: the theorem applied to a concrete store holding a protected
node 2 and an unreachable node 3. -/
theorem c4_gc_filled_iff_reachable_witness :
    ((∀ r ∈ stGC.roots, r < stGC.table.length ∧ filledAt stGC.table r = true) ∧
     tableClosed stGC.table ∧
     (∀ n ∈ stGC.table, n.marked = false) ∧
     0 ∈ stGC.roots ∧
     (nodeDown stGC.table 0 = 0 ∧ nodeRight stGC.table 0 = 0 ∧
      nodeDown stGC.table 1 = 0 ∧ nodeRight stGC.table 1 = 0)) ∧
    ((∀ i, filledAt (garbageCollect stGC).table i = true ↔ Reach stGC.table stGC.roots i) ∧
     (∀ i, filledAt (garbageCollect stGC).table i = true →
        filledAt (garbageCollect stGC).table (nodeDown (garbageCollect stGC).table i) = true ∧
        filledAt (garbageCollect stGC).table (nodeRight (garbageCollect stGC).table i) = true)) :=
  ⟨⟨by decide, tableClosed_of_all _ (by decide), by decide, by decide, by decide⟩,
   c4_gc_filled_iff_reachable stGC (by decide) (tableClosed_of_all _ (by decide)) (by decide)
     (by decide) (by decide)⟩
